import Mathlib

/-!
Verification of the decision and chain-orchestration engine of the
sharkonaibot repository (Python sources under src/sharkonai/).

Shallow embedding conventions:
  * Python JSON values are modelled by the inductive type `JVal`
    (numeric literals are restricted to integers, which covers every
    value appearing in the developments below).
  * Python dicts are modelled as association lists with last-binding
    lookup semantics (`dGet`); `dict.setdefault` appends a missing key
    at the end, exactly like CPython insertion order.
  * Python strings are modelled as `List Char` (Python indexes and
    slices strings by code point, as `List Char` does); top-level
    wrappers accept `String`.
  * The remote model (NVIDIA endpoint), the tool handlers and the
    persistent store are external collaborators: they are passed in as
    oracle functions.  An `Except String String` oracle value models a
    model call that either raises (`error`) or returns raw text (`ok`).
  * Temperatures are modelled as rationals.
-/

/-- JSON values as produced by `json.loads`.  Numbers are restricted to
integers, which is sufficient for every program path analysed here. -/
inductive JVal : Type where
  | null : JVal
  | bool : Bool → JVal
  | num : Int → JVal
  | str : String → JVal
  | arr : List JVal → JVal
  | obj : List (String × JVal) → JVal
  deriving Repr, Inhabited

/-- Python comparison `v == "none"` between a JSON value and the string
sentinel (only equal when `v` is that very string). -/
def isNoneStr : JVal → Bool
  | .str s => s == "none"
  | _ => false

/-- Python `v is None`. -/
def isNull : JVal → Bool
  | .null => true
  | _ => false

/-- Python dictionaries with string keys, as association lists. -/
abbrev PyDict : Type := List (String × JVal)

/-- Dictionary lookup: the last binding of a key wins (the JSON parser
keeps duplicate keys in order, and CPython dict construction lets the
last duplicate overwrite earlier ones). -/
def dGet (d : PyDict) (k : String) : Option JVal :=
  (d.reverse.find? (fun p => p.1 == k)).map Prod.snd

/-- Python `d.get(k, v)`. -/
def dGetD (d : PyDict) (k : String) (v : JVal) : JVal :=
  (dGet d k).getD v

/-- Python `k in d`. -/
def hasKey (d : PyDict) (k : String) : Bool :=
  d.any (fun p => p.1 == k)

/-- Python `d.setdefault(k, v)`: insert `k ↦ v` at the end when the key
is missing, otherwise leave the dict unchanged. -/
def setdefault (d : PyDict) (k : String) (v : JVal) : PyDict :=
  if hasKey d k then d else d ++ [(k, v)]

/-- Python `d[k] = v`, observed through `dGet`: appending the binding at
the end makes the new value the one found by last-binding lookup. -/
def dSet (d : PyDict) (k : String) (v : JVal) : PyDict :=
  d ++ [(k, v)]

/-- Python truthiness of a JSON value. -/
def truthy : JVal → Bool
  | .null => false
  | .bool b => b
  | .num n => n != 0
  | .str s => s != ""
  | .arr xs => !xs.isEmpty
  | .obj fs => !fs.isEmpty

/-- Characters treated as whitespace both by the regex class `\s` and by
Python `str.strip()` (ASCII fragment, which covers all inputs used
here). -/
def pySpace (c : Char) : Bool :=
  c = ' ' || c = '\t' || c = '\n' || c = '\r' || c = '\x0b' || c = '\x0c'

/-- Whitespace accepted between tokens by the JSON grammar. -/
def jsonWs (c : Char) : Bool :=
  c = ' ' || c = '\t' || c = '\n' || c = '\r'

/-- Python `str.strip()` on the ASCII whitespace fragment. -/
def pyStrip (cs : List Char) : List Char :=
  ((cs.dropWhile pySpace).reverse.dropWhile pySpace).reverse

/-- Python `str.lower()` restricted to ASCII letters (every keyword the
classifier matches against is ASCII). -/
def pyLower (c : Char) : Char :=
  if 65 ≤ c.toNat && c.toNat ≤ 90 then Char.ofNat (c.toNat + 32) else c

/-- Python substring test `needle in hay`. -/
def subIn (needle : List Char) : List Char → Bool
  | [] => needle.isEmpty
  | hay@(_ :: t) => needle.isPrefixOf hay || subIn needle t

/-- Result of one tool execution (`tools.ToolResult`). -/
structure ToolResult : Type where
  success : Bool
  stdout : String
  stderr : String
  return_code : Int
  image_path : String := ""
  file_path : String := ""
  deriving Repr, DecidableEq, Inhabited

/-- Python `a or b` on strings: the first operand if non-empty. -/
def pyOrStr (a b : String) : String :=
  if a ≠ "" then a else b

/-- Python slice `s[:n]`, by code points. -/
def pyTake (s : String) (n : Nat) : String :=
  String.mk (s.data.take n)

/-- Brain and chain related fields of `config.example.Config` (the
remaining fields are credentials, paths and collaborator settings that
the properties below never consult). -/
structure Config : Type where
  MAX_CHAIN_STEPS : Nat := 10
  MAX_RETRIES : Nat := 3
  CREATIVE_TEMPERATURE : ℚ := 7/10
  PRECISE_TEMPERATURE : ℚ := 1/5
  MAX_TOKENS : Nat := 4096

/-- The module-level `CONFIG` object with the default values of
`config.example.py`. -/
def CONFIG : Config := {}

/-! ### JSON parsing (`json.loads`)

Recursive descent parser over `List Char`, faithful to `json.loads` on
the grammar fragment exercised by the program: objects, arrays, strings
with the standard escapes, integer literals, `true`, `false`, `null`.
Fractional and exponent number forms and `\uXXXX` escapes for surrogate
code points are not modelled (no analysed input contains them); a parse
of such input fails instead.  The parser requires the whole input to be
consumed apart from trailing whitespace, exactly like `json.loads`. -/

/-- Simple escapes inside JSON strings. -/
def escChar : Char → Option Char
  | '"' => some '"'
  | '\\' => some '\\'
  | '/' => some '/'
  | 'b' => some '\x08'
  | 'f' => some '\x0c'
  | 'n' => some '\n'
  | 'r' => some '\r'
  | 't' => some '\t'
  | _ => none

/-- Decimal digit test (`0` to `9`), stated on code points. -/
def isDigitChar (c : Char) : Bool :=
  48 ≤ c.toNat && c.toNat ≤ 57

/-- Hexadecimal digit value. -/
def hexVal (c : Char) : Option Nat :=
  if '0' ≤ c ∧ c ≤ '9' then some (c.toNat - 48)
  else if 'a' ≤ c ∧ c ≤ 'f' then some (c.toNat - 87)
  else if 'A' ≤ c ∧ c ≤ 'F' then some (c.toNat - 55)
  else none

/-- Body of a JSON string after the opening quote: decoded contents and
the remainder after the closing quote.  Control characters are rejected
as in strict-mode `json.loads`. -/
def pStringBody : List Char → Option (List Char × List Char)
  | [] => none
  | '"' :: rest => some ([], rest)
  | '\\' :: rest =>
    match rest with
    | [] => none
    | 'u' :: h1 :: h2 :: h3 :: h4 :: rest2 =>
      match hexVal h1, hexVal h2, hexVal h3, hexVal h4 with
      | some a, some b, some c, some d =>
        let n := ((a * 16 + b) * 16 + c) * 16 + d
        if 0xd800 ≤ n ∧ n ≤ 0xdfff then none
        else (pStringBody rest2).map (fun p => (Char.ofNat n :: p.1, p.2))
      | _, _, _, _ => none
    | e :: rest2 =>
      match escChar e with
      | some c => (pStringBody rest2).map (fun p => (c :: p.1, p.2))
      | none => none
  | c :: rest =>
    if c.toNat < 32 then none
    else (pStringBody rest).map (fun p => (c :: p.1, p.2))

/-- Digits of a decimal literal interpreted as a natural number. -/
def digitsToNat (ds : List Char) : Nat :=
  ds.foldl (fun acc c => acc * 10 + (c.toNat - 48)) 0

/-- Integer literal of the JSON grammar (`0` or a nonzero-led digit run,
with optional leading minus).  A following `.`, `e` or `E` would start a
float literal, which is outside the modelled fragment, so it fails. -/
def pNum (cs : List Char) : Option (Int × List Char) :=
  let (neg, cs1) := match cs with
    | '-' :: t => (true, t)
    | _ => (false, cs)
  let ds := cs1.takeWhile isDigitChar
  let rest := cs1.drop ds.length
  if ds.isEmpty then none
  else if ds.length > 1 ∧ ds.head? = some '0' then none
  else match rest with
    | '.' :: _ => none
    | 'e' :: _ => none
    | 'E' :: _ => none
    | _ =>
      let n : Int := Int.ofNat (digitsToNat ds)
      some (if neg then -n else n, rest)

mutual

/-- Parse one JSON value after optional leading whitespace, returning it
with the unconsumed remainder. -/
def pVal : Nat → List Char → Option (JVal × List Char)
  | 0, _ => none
  | fuel + 1, cs =>
    match cs.dropWhile jsonWs with
    | '{' :: rest =>
      match rest.dropWhile jsonWs with
      | '}' :: rest2 => some (.obj [], rest2)
      | _ => (pMembers fuel rest).map (fun p => (JVal.obj p.1, p.2))
    | '[' :: rest =>
      match rest.dropWhile jsonWs with
      | ']' :: rest2 => some (.arr [], rest2)
      | _ => (pElems fuel rest).map (fun p => (JVal.arr p.1, p.2))
    | '"' :: rest => (pStringBody rest).map (fun p => (JVal.str (String.mk p.1), p.2))
    | 't' :: 'r' :: 'u' :: 'e' :: rest => some (.bool true, rest)
    | 'f' :: 'a' :: 'l' :: 's' :: 'e' :: rest => some (.bool false, rest)
    | 'n' :: 'u' :: 'l' :: 'l' :: rest => some (.null, rest)
    | other => (pNum other).map (fun p => (JVal.num p.1, p.2))

/-- Parse the members of an object after its opening brace (at least one
member), including the closing brace. -/
def pMembers : Nat → List Char → Option (List (String × JVal) × List Char)
  | 0, _ => none
  | fuel + 1, cs =>
    match cs.dropWhile jsonWs with
    | '"' :: rest =>
      match pStringBody rest with
      | none => none
      | some (k, r1) =>
        match r1.dropWhile jsonWs with
        | ':' :: r2 =>
          match pVal fuel r2 with
          | none => none
          | some (v, r3) =>
            match r3.dropWhile jsonWs with
            | ',' :: r4 =>
              (pMembers fuel r4).map (fun p => ((String.mk k, v) :: p.1, p.2))
            | '}' :: r4 => some ([(String.mk k, v)], r4)
            | _ => none
        | _ => none
    | _ => none

/-- Parse the elements of an array after its opening bracket (at least
one element), including the closing bracket. -/
def pElems : Nat → List Char → Option (List JVal × List Char)
  | 0, _ => none
  | fuel + 1, cs =>
    match pVal fuel cs with
    | none => none
    | some (v, r1) =>
      match r1.dropWhile jsonWs with
      | ',' :: r2 => (pElems fuel r2).map (fun p => (v :: p.1, p.2))
      | ']' :: r2 => some ([v], r2)
      | _ => none

end

/-- Python `json.loads` on a character list: one value, with nothing but
whitespace allowed after it. -/
def jloads (cs : List Char) : Option JVal :=
  match pVal (cs.length + 1) cs with
  | some (v, rest) => if (rest.dropWhile jsonWs).isEmpty then some v else none
  | none => none

/-! ### Reasoning-tag stripping (`brain._strip_thinking_tags`) -/

/-- Opening reasoning tag emitted by the model. -/
def thinkOpen : List Char := "<think>".data

/-- Closing reasoning tag. -/
def thinkClose : List Char := "</think>".data

/-- Suffix strictly after the first occurrence of `pat`, if any. -/
def findAfter (pat : List Char) : List Char → Option (List Char)
  | [] => if pat.isEmpty then some [] else none
  | cs@(_ :: t) =>
    if pat.isPrefixOf cs then some (cs.drop pat.length) else findAfter pat t

/-- Embedding of `re.sub(r"<think>.*?</think>", "", text, flags=DOTALL)`:
remove every paired reasoning block, scanning left to right and resuming
after each removal; an opening tag with no later closing tag does not
match and is kept.  The fuel argument only serves Lean totality; each
recursive call consumes at least one character, so `length + 1` fuel is
never exhausted. -/
def stripPairedThink : Nat → List Char → List Char
  | 0, cs => cs
  | fuel + 1, cs =>
    match cs with
    | [] => []
    | c :: rest =>
      if thinkOpen.isPrefixOf cs then
        match findAfter thinkClose (cs.drop 7) with
        | some suffix => stripPairedThink fuel suffix
        | none => c :: stripPairedThink fuel rest
      else c :: stripPairedThink fuel rest

/-- Embedding of `re.sub(r"<think>.*$", "", cleaned, flags=DOTALL)`:
drop everything from the first remaining opening tag to the end. -/
def cutAtThink : List Char → List Char
  | [] => []
  | cs@(c :: t) => if thinkOpen.isPrefixOf cs then [] else c :: cutAtThink t

/-- `brain._strip_thinking_tags` (the final `.strip()` included). -/
def strip_thinking_tags (cs : List Char) : List Char :=
  pyStrip (cutAtThink (stripPairedThink (cs.length + 1) cs))

/-! ### Structured output extraction (`brain._extract_json`)

The stages of the extractor are tagged so that theorems can speak about
which fallback produced a result; `extract_json` projects the tag away
and is the exact observable behaviour of the Python function (a parsed
top-level `null` and an extraction failure are the same Python `None`,
which the collapse in `jret` reproduces). -/

/-- Stage of the extraction fallback chain that produced a result. -/
inductive Stage : Type where
  | direct : Stage
  | fenced : Stage
  | braces : Stage
  | patterns : Stage
  deriving Repr, DecidableEq

/-- Collapse of a parsed value into the Python return value: returning a
parsed top-level `null` is indistinguishable from returning `None`. -/
def jret (st : Stage) : JVal → Option (Stage × JVal)
  | .null => none
  | j => some (st, j)

/-- Test used by the lazy group of the fence pattern: does a closing
code fence follow, after optional whitespace. -/
def fenceFollows (cs : List Char) : Bool :=
  "```".data.isPrefixOf (cs.dropWhile pySpace)

/-- Lazy capture of `\{.*?\}` before `\s*` and a closing fence: the
shortest extension of the already-open brace group whose closing brace
is followed by whitespace and a fence. -/
def lazyCapture : List Char → Option (List Char)
  | [] => none
  | '}' :: rest =>
    if fenceFollows rest then some ['}']
    else (lazyCapture rest).map (fun l => '}' :: l)
  | c :: rest => (lazyCapture rest).map (fun l => c :: l)

/-- Match of the fence pattern anchored at the current position:
three backticks, an optional literal `json`, whitespace, then the lazy
brace group.  The optional group and the whitespace star are
deterministic here because backtracking them can never rescue a failed
match (the following character is then neither whitespace nor an
opening brace). -/
def tryFenceAt : List Char → Option (List Char)
  | '`' :: '`' :: '`' :: rest =>
    let rest1 := if "json".data.isPrefixOf rest then rest.drop 4 else rest
    match rest1.dropWhile pySpace with
    | '{' :: rest2 => (lazyCapture rest2).map (fun l => '{' :: l)
    | _ => none
  | _ => none

/-- Embedding of `re.search` for the fence pattern
`r"```(?:json)?\s*(\{.*?\})\s*```"` with DOTALL: the captured group of
the match at the leftmost position where the whole pattern matches. -/
def fenceSearch : List Char → Option (List Char)
  | [] => none
  | cs@(_ :: t) => (tryFenceAt cs) <|> fenceSearch t

/-- String-literal-aware scan for the first balanced brace group,
started on the opening brace: returns how many characters the group
spans.  A backslash skips the following character, an unescaped quote
toggles string mode, braces only count outside strings — exactly the
loop of `_extract_json` step 4. -/
def braceScanLen : List Char → Nat → Bool → Nat → Option Nat
  | [], _, _, _ => none
  | '\\' :: rest, depth, inStr, n =>
    match rest with
    | [] => none
    | _ :: rest2 => braceScanLen rest2 depth inStr (n + 2)
  | '"' :: rest, depth, inStr, n => braceScanLen rest depth (!inStr) (n + 1)
  | c :: rest, depth, inStr, n =>
    if inStr then braceScanLen rest depth inStr (n + 1)
    else if c = '{' then braceScanLen rest (depth + 1) inStr (n + 1)
    else if c = '}' then
      if depth = 1 then some (n + 1)
      else braceScanLen rest (depth - 1) inStr (n + 1)
    else braceScanLen rest depth inStr (n + 1)

/-- First balanced `{...}` candidate of step 4: from the first opening
brace of the text, if the scan balances. -/
def braceCandidate (cs : List Char) : Option (List Char) :=
  match cs.findIdx? (fun c => c = '{') with
  | none => none
  | some i =>
    let tail := cs.drop i
    (braceScanLen tail 0 false 0).map (fun n => tail.take n)

/-- Single left-to-right pass of `re.sub(r",\s*X", "X", s)` for a
closing character `X`: the optional pending state holds a comma and the
whitespace read after it while the match is still undecided. -/
def subTC (close : Char) : Option (List Char) → List Char → List Char
  | none, [] => []
  | some pend, [] => pend.reverse
  | none, ',' :: rest => subTC close (some [',']) rest
  | none, c :: rest => c :: subTC close none rest
  | some pend, c :: rest =>
    if pySpace c then subTC close (some (c :: pend)) rest
    else if c = close then close :: subTC close none rest
    else if c = ',' then pend.reverse ++ subTC close (some [',']) rest
    else pend.reverse ++ c :: subTC close none rest

/-- Both trailing-comma repairs, in source order: first before `}`,
then before `]`. -/
def fixTrailingCommas (cs : List Char) : List Char :=
  subTC ']' none (subTC '}' none cs)

/-- Python `candidate.replace("'", '"')`. -/
def quoteSwap (cs : List Char) : List Char :=
  cs.map (fun c => if c = '\'' then '"' else c)

/-- Lazy capture of `(.*?)"`: everything up to the first quote. -/
def lazyToQuote : List Char → Option (List Char)
  | [] => none
  | '"' :: _ => some []
  | c :: rest => (lazyToQuote rest).map (fun l => c :: l)

/-- Match of `"KEY"\s*:\s*"(.*?)"` anchored at the current position. -/
def tryFieldAt (key : List Char) (cs : List Char) : Option (List Char) :=
  let pat := '"' :: (key ++ ['"'])
  if pat.isPrefixOf cs then
    match (cs.drop pat.length).dropWhile pySpace with
    | ':' :: r2 =>
      match r2.dropWhile pySpace with
      | '"' :: r3 => lazyToQuote r3
      | _ => none
    | _ => none
  else none

/-- Embedding of `re.search` for the field pattern of step 5. -/
def findField (key : List Char) : List Char → Option (List Char)
  | [] => none
  | cs@(_ :: t) => (tryFieldAt key cs) <|> findField key t

/-- Step 5 of the extractor: synthesize a minimal decision from the
`thought` and `response` values found in the raw text, if a `response`
value is present. -/
def patternStage (t : List Char) : Option (Stage × JVal) :=
  match findField "response".data t with
  | none => none
  | some resp =>
    some (.patterns, .obj [
      ("thought", .str (String.mk ((findField "thought".data t).getD []))),
      ("action", .str "none"),
      ("parameters", .obj []),
      ("response", .str (String.mk resp)),
      ("continue", .bool false)])

/-- Step 4 of the extractor: parse the first balanced brace group,
trying the two repair passes on failure; when the single candidate is
beyond repair, fall through to step 5 (the Python loop `break`s, it
never scans for a second candidate). -/
def braceStage (t : List Char) : Option (Stage × JVal) :=
  match braceCandidate t with
  | none => patternStage t
  | some cand =>
    match jloads cand with
    | some j => jret .braces j
    | none =>
      match jloads (fixTrailingCommas cand) with
      | some j => jret .braces j
      | none =>
        match jloads (fixTrailingCommas (quoteSwap cand)) with
        | some j => jret .braces j
        | none => patternStage t

/-- The full extraction fallback chain of `_extract_json`, with the
producing stage attached. -/
def extractCore (raw : List Char) : Option (Stage × JVal) :=
  let t := strip_thinking_tags raw
  if t.isEmpty then none
  else
    match jloads t with
    | some j => jret .direct j
    | none =>
      match fenceSearch t with
      | some cap =>
        match jloads cap with
        | some j => jret .fenced j
        | none => braceStage t
      | none => braceStage t

/-- `brain._extract_json`: the observable result, stage projected away. -/
def extract_json (s : String) : Option JVal :=
  (extractCore s.data).map Prod.snd

/-! ### Task classification (`Brain._classify_task`) -/

/-- Creative-signal keywords, in source order. -/
def creative_signals : List String :=
  ["write", "story", "poem", "joke", "creative", "imagine",
   "chat", "talk", "tell me", "how are you", "what do you think",
   "opinion", "suggest", "recommend", "idea"]

/-- Precise-signal keywords, in source order. -/
def precise_signals : List String :=
  ["run", "execute", "install", "create file", "write file",
   "open", "click", "type", "command", "code", "script",
   "fix", "debug", "error", "delete", "kill", "process",
   "download", "build", "deploy", "configure", "setup"]

/-- `Brain._classify_task`: lowercase the message, then substring-match
the creative signals, then the precise signals, else balanced. -/
def classify_task (message : String) : String :=
  let ml := message.data.map pyLower
  if creative_signals.any (fun w => subIn w.data ml) then "creative"
  else if precise_signals.any (fun w => subIn w.data ml) then "precise"
  else "balanced"

/-- Temperature selected by `Brain.think` from the task type. -/
def baseTemperature (taskType : String) : ℚ :=
  if taskType = "creative" then CONFIG.CREATIVE_TEMPERATURE
  else if taskType = "precise" then CONFIG.PRECISE_TEMPERATURE
  else 1/2

/-! ### Decision controller (`Brain.think`)

The remote model is an oracle `Nat → Except String String` giving, for
each attempt index, either the raw completion text or a raised service
error.  The conversation assembly (system prompt, memory context, chain
summary) only feeds that oracle and does not influence the control flow
modelled here.  `think` additionally returns the trace of performed
calls (effective temperature, whether the corrective retry message was
appended, and the oracle outcome) so that theorems can count calls. -/

/-- Record of one model call performed by the retry loop. -/
structure CallRec : Type where
  temp : ℚ
  corrective : Bool
  raw : Except String String
  deriving Repr

/-- Effective temperature of an attempt: the base temperature on the
first attempt, then lowered by 0.2 per attempt with a floor of 0.1. -/
def effectiveTemperature (base : ℚ) (attempt : Nat) : ℚ :=
  if attempt = 0 then base else max (1/10) (base - (1/5) * attempt)

/-- Field defaulting applied by `think` on a successfully extracted
dict, in source order. -/
def setdefaultFive (fs : PyDict) : PyDict :=
  setdefault (setdefault (setdefault (setdefault (setdefault
    fs "thought" (.str "")) "action" (.str "none"))
    "parameters" (.obj [])) "response" (.str "I processed your request."))
    "continue" (.bool false)

/-- Decision returned when the final attempt raised error `e`. -/
def errorDecision (e : String) : PyDict :=
  [("thought", .str ("Error occurred: " ++ e)),
   ("action", .str "none"),
   ("parameters", .obj []),
   ("response", .str ("⚠️ I encountered an error while processing: " ++ e)),
   ("continue", .bool false)]

/-- Decision returned when every attempt produced unparseable text:
the last raw text, tag-stripped, or a generic fallback sentence. -/
def fallbackDecision (raw : String) : PyDict :=
  let cleaned := String.mk (strip_thinking_tags raw.data)
  [("thought", .str "Response was not in JSON format after retries."),
   ("action", .str "none"),
   ("parameters", .obj []),
   ("response", .str (if cleaned ≠ "" then cleaned
     else "I processed your request but couldn\x27t format the response properly.")),
   ("continue", .bool false)]

/-- Decision returned after the loop without any return (only reachable
with a zero retry budget). -/
def unexpectedDecision : PyDict :=
  [("thought", .str "Unexpected flow."),
   ("action", .str "none"),
   ("parameters", .obj []),
   ("response", .str "⚠️ Something went wrong. Please try again."),
   ("continue", .bool false)]

/-- Python type name of a JSON value, used in the AttributeError text
raised when a non-dict extraction result is used as a dict. -/
def pyTypeName : JVal → String
  | .null => "NoneType"
  | .bool _ => "bool"
  | .num _ => "int"
  | .str _ => "str"
  | .arr _ => "list"
  | .obj _ => "dict"

/-- Message of the AttributeError raised on `decision.get` when the
extraction produced a non-dict value. -/
def attrErrMsg (j : JVal) : String :=
  "\x27" ++ pyTypeName j ++ "\x27 object has no attribute \x27get\x27"

/-- Retry loop of `Brain.think`.  `rem` is the remaining number of loop
iterations (`retries - attempt`), which makes the recursion structural;
the loop condition `attempt < retries` of the Python `for` is exactly
`rem > 0`. -/
def thinkGo (calls : Nat → Except String String) (base : ℚ) (retries : Nat) :
    Nat → Nat → List CallRec → List CallRec × PyDict
  | 0, _, trace => (trace, unexpectedDecision)
  | rem + 1, attempt, trace =>
    let temp := effectiveTemperature base attempt
    let corrective := attempt != 0
    match calls attempt with
    | .error e =>
      let trace1 := trace ++ [⟨temp, corrective, .error e⟩]
      if attempt = retries - 1 then (trace1, errorDecision e)
      else thinkGo calls base retries rem (attempt + 1) trace1
    | .ok raw =>
      let trace1 := trace ++ [⟨temp, corrective, .ok raw⟩]
      match extract_json raw with
      | some (.obj fs) => (trace1, setdefaultFive fs)
      | some j =>
        if attempt = retries - 1 then (trace1, errorDecision (attrErrMsg j))
        else thinkGo calls base retries rem (attempt + 1) trace1
      | none =>
        if attempt < retries - 1 then thinkGo calls base retries rem (attempt + 1) trace1
        else (trace1, fallbackDecision raw)

/-- `Brain.think` with an explicit retry budget. -/
def thinkWith (calls : Nat → Except String String) (user_message : String)
    (retries : Nat) : List CallRec × PyDict :=
  thinkGo calls (baseTemperature (classify_task user_message)) retries retries 0 []

/-- `Brain.think` at the configured retry budget. -/
def think (calls : Nat → Except String String) (user_message : String) :
    List CallRec × PyDict :=
  thinkWith calls user_message CONFIG.MAX_RETRIES

/-! ### Reflection (`Brain.process_tool_result`) -/

/-- Local summary used when the reflection call raises: stdout first,
then stderr, then the return code sentence. -/
def summaryOnError (tr : ToolResult) : String :=
  if tr.stdout ≠ "" then pyTake tr.stdout 2000
  else if tr.stderr ≠ "" then "Error: " ++ pyTake tr.stderr 1000
  else "Command completed with return code " ++ toString tr.return_code ++ "."

/-- Decision produced by the `except` clause of `process_tool_result`. -/
def apiErrorDecision (tr : ToolResult) : PyDict :=
  [("thought", .str "Fallback summary due to API error."),
   ("action", .str "none"),
   ("parameters", .obj []),
   ("response", .str (summaryOnError tr)),
   ("continue", .bool false)]

/-- Decision produced by the `else` branch of `process_tool_result`
(no usable extraction): the tag-stripped raw text or a generic line. -/
def summarizeDecision (raw : String) : PyDict :=
  let cleaned := String.mk (strip_thinking_tags raw.data)
  [("thought", .str "Summarizing tool output."),
   ("action", .str "none"),
   ("parameters", .obj []),
   ("response", .str (if cleaned ≠ "" then cleaned else "Tool executed successfully.")),
   ("continue", .bool false)]

/-- Field defaulting applied on the reflection success path: `action`,
`parameters` and `continue` only — `thought` is not defaulted there. -/
def setdefaultReflect (fs : PyDict) : PyDict :=
  setdefault (setdefault (setdefault fs "action" (.str "none"))
    "parameters" (.obj [])) "continue" (.bool false)

/-- Continuation of `process_tool_result` after the extraction,
evaluating `if result and "response" in result` with Python semantics:
a falsy result or a missing membership goes to the else branch; a
membership test or `setdefault` on a non-dict value raises inside the
`try` and lands in the `except` clause. -/
inductive ReflectPath : Type where
  | success (fs : PyDict) : ReflectPath
  | fallback : ReflectPath
  | excPath : ReflectPath

/-- Branch selection of `process_tool_result` on the extraction
result. -/
def reflectBranch : Option JVal → ReflectPath
  | some (.obj fs) =>
    if fs.isEmpty then .fallback
    else if hasKey fs "response" then .success fs else .fallback
  | some (.arr xs) =>
    if xs.isEmpty then .fallback
    else if xs.any (fun x => match x with | .str s => s == "response" | _ => false)
      then .excPath else .fallback
  | some (.str s) =>
    if s == "" then .fallback
    else if subIn "response".data s.data then .excPath else .fallback
  | some (.num n) => if n == 0 then .fallback else .excPath
  | some (.bool b) => if b then .excPath else .fallback
  | some .null => .fallback
  | none => .fallback

/-- `Brain.process_tool_result`.  The f-string building `tool_output`
subscripts `decision["action"]` before the `try` block, so a decision
without that key raises a KeyError to the caller; every other failure
is converted into a complete fallback decision. -/
def process_tool_result (call : Except String String) (decision : PyDict)
    (tr : ToolResult) : Except String PyDict :=
  match dGet decision "action" with
  | none => .error "KeyError: \x27action\x27"
  | some _ =>
    .ok (match call with
      | .error _ => apiErrorDecision tr
      | .ok raw =>
        match reflectBranch (extract_json raw) with
        | .success fs => setdefaultReflect fs
        | .fallback => summarizeDecision raw
        | .excPath => apiErrorDecision tr)

/-! ### Tool dispatch (`tools.dispatch_tool`)

The registry is the dependency: each handler is an oracle taking the
cleaned parameter dict and reporting either a ToolResult, a TypeError
(parameter shape mismatch) or another exception. -/

/-- Outcome of invoking a tool handler. -/
inductive HandlerOutcome : Type where
  | ok (r : ToolResult) : HandlerOutcome
  | typeError (e : String) : HandlerOutcome
  | exc (e : String) : HandlerOutcome

/-- A tool registry: `TOOL_MAP` as an association list. -/
abbrev ToolRegistry : Type := List (String × (PyDict → HandlerOutcome))

/-- Registry lookup (registry keys are unique in the source literal). -/
def lookupTool (registry : ToolRegistry) (action : String) :
    Option (PyDict → HandlerOutcome) :=
  (registry.find? (fun p => p.1 == action)).map Prod.snd

/-- Python repr of `list(TOOL_MAP.keys())`. -/
def pyListRepr (ks : List String) : String :=
  "[" ++ String.intercalate ", " (ks.map (fun k => "\x27" ++ k ++ "\x27")) ++ "]"

/-- Parameter cleaning of `dispatch_tool`: drop None-valued entries. -/
def filterNoneParams (ps : PyDict) : PyDict :=
  ps.filter (fun p => !isNull p.2)

/-- `tools.dispatch_tool`: unknown actions and handler exceptions are
returned as failed ToolResults, never raised. -/
def dispatch_tool (registry : ToolRegistry) (action : String)
    (parameters : PyDict) : ToolResult :=
  match lookupTool registry action with
  | none =>
    ⟨false, "",
      "Unknown tool: " ++ action ++ ". Available: "
        ++ pyListRepr (registry.map Prod.fst), 1, "", ""⟩
  | some f =>
    match f (filterNoneParams parameters) with
    | .ok r => r
    | .typeError e =>
      ⟨false, "", "Invalid parameters for " ++ action ++ ": " ++ e, 1, "", ""⟩
    | .exc e =>
      ⟨false, "", "Tool execution error: " ++ e, 1, "", ""⟩

/-! ### Message splitting (`telegram_handler.split_message`)

The Python loop does not terminate for `max_length ≤ 1` (the chosen
split position can be 0, leaving the text unchanged), so the embedding
carries explicit fuel and returns `none` on exhaustion; the termination
theorem shows the fuel `length + 1` is never exhausted once
`max_length ≥ 2`. -/

/-- Python `s.rfind(c)` restricted to single-character needles: the last
index at which `c` occurs, if any. -/
def rfindIdx (c : Char) (cs : List Char) : Option Nat :=
  match cs.reverse.findIdx? (fun x => x = c) with
  | none => none
  | some j => some (cs.length - 1 - j)

/-- Split-position selection of one loop iteration: prefer the last
newline of the `max_length` prefix, then the last space, each only when
it lies in the upper half; otherwise cut at `max_length`. -/
def choosePos (prefixChars : List Char) (maxLen : Nat) : Nat :=
  let half := maxLen / 2
  let spaceCase :=
    match rfindIdx ' ' prefixChars with
    | some p => if p < half then maxLen else p
    | none => maxLen
  match rfindIdx '\n' prefixChars with
  | some p => if p < half then spaceCase else p
  | none => spaceCase

/-- Loop of `split_message`. -/
def splitGo : Nat → List Char → Nat → Option (List (List Char))
  | 0, _, _ => none
  | fuel + 1, text, maxLen =>
    if text.isEmpty then some []
    else if text.length ≤ maxLen then some [text]
    else
      let sp := choosePos (text.take maxLen) maxLen
      let chunk := text.take sp
      let rest := (text.drop sp).dropWhile (fun c => c = '\n')
      (splitGo fuel rest maxLen).map (fun cs => chunk :: cs)

/-- `telegram_handler.split_message`. -/
def split_message (text : String) (maxLen : Nat) : Option (List String) :=
  if text.length ≤ maxLen then some [text]
  else (splitGo (text.data.length + 1) text.data maxLen).map (List.map String.mk)

/-! ### Chain orchestration (`telegram_handler.execute_tool_chain`)

Oracles: `tool` gives the ToolResult of the dispatch performed at each
step number, and `refl` gives the decision dict returned by
`process_tool_result` for that step and ToolResult.  The transport and
persistence side effects (status edits, memory writes, media sends) do
not influence the control flow and are not modelled.  `rem` is the
remaining loop budget `MAX_CHAIN_STEPS - step`, so the Python loop
condition `step < MAX_CHAIN_STEPS` is exactly `rem > 0`. -/

/-- One recorded chain step, as appended to `chain_context`. -/
structure ChainStep : Type where
  step : Nat
  action : JVal
  parameters : JVal
  success : Bool
  output : String
  deriving Repr

/-- Guard `action and action != "none"` of the chain loop. -/
def chainGuard (a : JVal) : Bool :=
  truthy a && !isNoneStr a

/-- Loop of `execute_tool_chain`. -/
def chainGo (refl : Nat → ToolResult → PyDict) (tool : Nat → ToolResult)
    (userText : String) :
    Nat → PyDict → Nat → List ChainStep → JVal → JVal × List ChainStep
  | 0, _, _, ctx, fin => (fin, ctx)
  | rem + 1, decision, step, ctx, fin =>
    let actionJ := dGetD decision "action" (.str "none")
    let paramsJ := dGetD decision "parameters" (.obj [])
    let shouldC := dGetD decision "continue" (.bool false)
    if chainGuard actionJ then
      let step1 := step + 1
      let tr := tool step1
      let ctx1 := ctx ++
        [⟨step1, actionJ, paramsJ, tr.success, pyTake (pyOrStr tr.stdout tr.stderr) 500⟩]
      let follow := refl step1 tr
      let fin1 := dGetD follow "response" fin
      let nextA := dGetD follow "action" (.str "none")
      let nextC := dGetD follow "continue" (.bool false)
      if chainGuard nextA && (truthy nextC || truthy shouldC) then
        chainGo refl tool userText rem
          (dSet follow "_original_message" (.str userText)) step1 ctx1 fin1
      else (fin1, ctx1)
    else (fin, ctx)

/-- `telegram_handler.execute_tool_chain`: returns the final response
and the chain context. -/
def execute_tool_chain (maxSteps : Nat) (refl : Nat → ToolResult → PyDict)
    (tool : Nat → ToolResult) (userText : String) (initial : PyDict) :
    JVal × List ChainStep :=
  chainGo refl tool userText maxSteps initial 0 []
    (dGetD initial "response" (.str ""))

/-! ### Spec-side predicates used to state the claims -/

/-- The five fields of a Decision record. -/
def fiveKeys : List String :=
  ["thought", "action", "parameters", "response", "continue"]

/-- A JSON value that is a record with all five Decision fields
present. -/
def hasAllFive : JVal → Bool
  | .obj fs => fiveKeys.all (fun k => hasKey fs k)
  | _ => false

/-- The default value the controller assigns to a missing Decision
field. -/
def fieldDefault (k : String) : JVal :=
  if k = "thought" then .str ""
  else if k = "action" then .str "none"
  else if k = "parameters" then .obj []
  else if k = "response" then .str "I processed your request."
  else .bool false

/-- A dict with all five Decision fields present and correctly typed:
string thought, string action, object parameters, string response,
boolean continue. -/
def decisionWellTyped (d : PyDict) : Bool :=
  (match dGet d "thought" with | some (.str _) => true | _ => false) &&
  (match dGet d "action" with | some (.str _) => true | _ => false) &&
  (match dGet d "parameters" with | some (.obj _) => true | _ => false) &&
  (match dGet d "response" with | some (.str _) => true | _ => false) &&
  (match dGet d "continue" with | some (.bool _) => true | _ => false)

/-! ### Dictionary lemmas -/

/-- Appending a binding for a different key does not change lookups. -/
theorem dGet_append_ne (d : PyDict) (k k2 : String) (v : JVal) (h : k2 ≠ k) :
    dGet (d ++ [(k2, v)]) k = dGet d k := by
  simp [dGet, List.reverse_append, List.find?, h]

/-- Setting an unrelated key does not change lookups. -/
theorem dGet_dSet_ne (d : PyDict) (k k2 : String) (v : JVal) (h : k2 ≠ k) :
    dGet (dSet d k2 v) k = dGet d k :=
  dGet_append_ne d k k2 v h

/-- Lookup of a key just appended. -/
theorem dGet_append_self (d : PyDict) (k : String) (v : JVal) :
    dGet (d ++ [(k, v)]) k = some v := by
  simp [dGet, List.reverse_append, List.find?]

/-- Key presence after an append. -/
theorem hasKey_append (d : PyDict) (k k2 : String) (v : JVal) :
    hasKey (d ++ [(k2, v)]) k = (hasKey d k || (k2 == k)) := by
  simp [hasKey, List.any_append]

/-- `setdefault` makes its key present. -/
theorem hasKey_setdefault_self (d : PyDict) (k : String) (v : JVal) :
    hasKey (setdefault d k v) k = true := by
  unfold setdefault
  by_cases h : hasKey d k = true
  · simp [h]
  · simp [h, hasKey_append]

/-- `setdefault` keeps every present key present. -/
theorem hasKey_setdefault_mono (d : PyDict) (k k2 : String) (v : JVal)
    (h : hasKey d k = true) : hasKey (setdefault d k2 v) k = true := by
  unfold setdefault
  by_cases h2 : hasKey d k2 = true
  · simp [h2, h]
  · simp [h2, hasKey_append, h]

/-- `setdefault` does not change the lookup of a present key. -/
theorem dGet_setdefault_of_hasKey (d : PyDict) (k k2 : String) (v : JVal)
    (h : hasKey d k = true) : dGet (setdefault d k2 v) k = dGet d k := by
  unfold setdefault
  by_cases h2 : hasKey d k2 = true
  · simp [h2]
  · have hne : k2 ≠ k := by
      intro he
      rw [he] at h2
      exact h2 h
    simp [h2, dGet_append_ne d k k2 v hne]

/-- `setdefault` of a missing key makes it look up to the default. -/
theorem dGet_setdefault_of_missing (d : PyDict) (k : String) (v : JVal)
    (h : hasKey d k = false) : dGet (setdefault d k v) k = some v := by
  unfold setdefault
  simp [h, dGet_append_self]

/-- A key that is absent never has a binding to find. -/
theorem dGet_eq_none_of_not_hasKey (d : PyDict) (k : String)
    (h : hasKey d k = false) : dGet d k = none := by
  unfold dGet
  have hf : List.find? (fun p => p.1 == k) d.reverse = none := by
    rw [List.find?_eq_none]
    intro p hp
    have hp2 : p ∈ d := List.mem_reverse.mp hp
    unfold hasKey at h
    rw [List.any_eq_false] at h
    exact h p hp2
  rw [hf]
  rfl

/-! ### C1 and C5: chain orchestration lemmas -/

/-- The chain context grows by at most the remaining loop budget. -/
theorem chainGo_length_le (refl : Nat → ToolResult → PyDict)
    (tool : Nat → ToolResult) (userText : String) :
    ∀ (rem : Nat) (d : PyDict) (step : Nat) (ctx : List ChainStep) (fin : JVal),
      (chainGo refl tool userText rem d step ctx fin).2.length ≤ ctx.length + rem := by
  intro rem
  induction rem with
  | zero => intro d step ctx fin; simp [chainGo]
  | succ n ih =>
    intro d step ctx fin
    simp only [chainGo]
    split
    · split
      · refine le_trans (ih _ _ _ _) ?_
        simp only [List.length_append, List.length_cons, List.length_nil]
        omega
      · show (_ ++ [_]).length ≤ _
        simp only [List.length_append, List.length_cons, List.length_nil]
        omega
    · exact Nat.le_add_right ctx.length (n + 1)

/-- The chain loop never discards recorded steps: the final context is
at least as long as the accumulator. -/
theorem chainGo_length_ge (refl : Nat → ToolResult → PyDict)
    (tool : Nat → ToolResult) (userText : String) :
    ∀ (rem : Nat) (d : PyDict) (step : Nat) (ctx : List ChainStep) (fin : JVal),
      ctx.length ≤ (chainGo refl tool userText rem d step ctx fin).2.length := by
  intro rem
  induction rem with
  | zero => intro d step ctx fin; simp [chainGo]
  | succ n ih =>
    intro d step ctx fin
    simp only [chainGo]
    split
    · split
      · refine le_trans ?_ (ih _ _ _ _)
        simp only [List.length_append, List.length_cons, List.length_nil]
        omega
      · show ctx.length ≤ (_ ++ [_]).length
        simp only [List.length_append, List.length_cons, List.length_nil]
        omega
    · exact Nat.le_refl ctx.length

/-- `dGetD` version of `dGet_dSet_ne`. -/
theorem dGetD_dSet_ne (d : PyDict) (k k2 : String) (v dv : JVal) (h : k2 ≠ k) :
    dGetD (dSet d k2 v) k dv = dGetD d k dv := by
  unfold dGetD
  rw [dGet_dSet_ne _ _ _ _ h]

/-- C1: for every chain executed by `execute_tool_chain`, whatever
decision dicts the reflection oracle produces and whatever the tools
report, the number of recorded chain steps (equal to the number of tool
dispatches, one list append per dispatch) is at most the step budget
`maxSteps`; the loop always terminates, which the embedding witnesses
by being a total function; and the configured budget
`CONFIG.MAX_CHAIN_STEPS` defaults to 10. -/
theorem c1_chain_steps_bounded :
    (∀ (maxSteps : Nat) (refl : Nat → ToolResult → PyDict)
       (tool : Nat → ToolResult) (userText : String) (initial : PyDict),
       (execute_tool_chain maxSteps refl tool userText initial).2.length ≤ maxSteps)
    ∧ CONFIG.MAX_CHAIN_STEPS = 10 := by
  refine ⟨?_, rfl⟩
  intro maxSteps refl tool userText initial
  have h := chainGo_length_le refl tool userText maxSteps initial 0 []
    (dGetD initial "response" (.str ""))
  simpa [execute_tool_chain] using h

/-- The number of recorded steps does not depend on the ToolResults
themselves, only on the decision dicts the reflection oracle returns
for them. -/
theorem chainGo_length_tool_congr (refl : Nat → ToolResult → PyDict)
    (tool₁ tool₂ : Nat → ToolResult) (userText : String)
    (h : ∀ n, refl n (tool₁ n) = refl n (tool₂ n)) :
    ∀ (rem : Nat) (d : PyDict) (step : Nat) (ctx₁ ctx₂ : List ChainStep)
      (fin₁ fin₂ : JVal), ctx₁.length = ctx₂.length →
      (chainGo refl tool₁ userText rem d step ctx₁ fin₁).2.length
        = (chainGo refl tool₂ userText rem d step ctx₂ fin₂).2.length := by
  intro rem
  induction rem with
  | zero => intro d step ctx₁ ctx₂ fin₁ fin₂ hl; simpa [chainGo] using hl
  | succ n ih =>
    intro d step ctx₁ ctx₂ fin₁ fin₂ hl
    simp only [chainGo]
    rw [h (step + 1)]
    by_cases hg : chainGuard (dGetD d "action" (.str "none")) = true
    · simp only [hg, if_true]
      by_cases hc : (chainGuard (dGetD (refl (step + 1) (tool₂ (step + 1))) "action" (.str "none"))
          && (truthy (dGetD (refl (step + 1) (tool₂ (step + 1))) "continue" (.bool false))
              || truthy (dGetD d "continue" (.bool false)))) = true
      · simp only [hc, if_true]
        exact ih _ _ _ _ _ _ (by simp [hl])
      · simp only [hc, if_false]
        simp [hl]
    · simp only [hg, if_false]
      exact hl

/-- C5: after a dispatch, the chain performs a further dispatch exactly
when the reflected decision names a truthy action other than `"none"`,
either the reflected or the pre-dispatch `continue` flag is truthy, and
loop budget remains (`1 ≤ rem` is `step + 1 < MAX_CHAIN_STEPS` at the
call sites); and the number of dispatches never depends on the
ToolResults themselves — in particular a ToolResult with
`success = false` cannot end the chain early once the reflected
decision supplies a further action. -/
theorem c5_continuation_iff :
    (∀ (refl : Nat → ToolResult → PyDict) (tool : Nat → ToolResult)
       (userText : String) (rem : Nat) (d : PyDict) (step : Nat)
       (ctx : List ChainStep) (fin : JVal),
       chainGuard (dGetD d "action" (.str "none")) = true →
       (ctx.length + 2 ≤
          (chainGo refl tool userText (rem + 1) d step ctx fin).2.length
        ↔ (chainGuard (dGetD (refl (step + 1) (tool (step + 1))) "action" (.str "none")) = true
           ∧ (truthy (dGetD (refl (step + 1) (tool (step + 1))) "continue" (.bool false)) = true
              ∨ truthy (dGetD d "continue" (.bool false)) = true)
           ∧ 1 ≤ rem)))
    ∧ (∀ (refl : Nat → ToolResult → PyDict) (tool₁ tool₂ : Nat → ToolResult)
       (userText : String) (rem : Nat) (d : PyDict) (step : Nat)
       (ctx : List ChainStep) (fin : JVal),
       (∀ n, refl n (tool₁ n) = refl n (tool₂ n)) →
       (chainGo refl tool₁ userText rem d step ctx fin).2.length
         = (chainGo refl tool₂ userText rem d step ctx fin).2.length) := by
  constructor
  · intro refl tool userText rem d step ctx fin hg
    simp only [chainGo, hg, if_true]
    by_cases hc : (chainGuard (dGetD (refl (step + 1) (tool (step + 1))) "action" (.str "none"))
        && (truthy (dGetD (refl (step + 1) (tool (step + 1))) "continue" (.bool false))
            || truthy (dGetD d "continue" (.bool false)))) = true
    · have hparts := hc
      rw [Bool.and_eq_true, Bool.or_eq_true] at hparts
      simp only [hc, if_true]
      constructor
      · intro hlen
        refine ⟨hparts.1, hparts.2, ?_⟩
        by_contra hrem
        have hrem0 : rem = 0 := by omega
        subst hrem0
        simp only [chainGo] at hlen
        simp at hlen
      · rintro ⟨-, -, hrem⟩
        obtain ⟨m, rfl⟩ : ∃ m, rem = m + 1 := ⟨rem - 1, by omega⟩
        simp only [chainGo]
        have hg2 : chainGuard (dGetD
            (dSet (refl (step + 1) (tool (step + 1))) "_original_message" (.str userText))
            "action" (.str "none")) = true := by
          rw [dGetD_dSet_ne _ _ _ _ _ (by decide)]
          exact hparts.1
        simp only [hg2, if_true]
        split
        · refine le_trans ?_ (chainGo_length_ge _ _ _ _ _ _ _ _)
          simp only [List.length_append, List.length_cons, List.length_nil]
          omega
        · show ctx.length + 2 ≤ (_ ++ [_] ++ [_]).length
          simp only [List.length_append, List.length_cons, List.length_nil]
          omega
    · rw [Bool.not_eq_true] at hc
      simp only [hc, Bool.false_eq_true, if_false]
      constructor
      · intro hlen
        exfalso
        simp at hlen
      · rintro ⟨h1, h2, -⟩
        have hb : (chainGuard (dGetD (refl (step + 1) (tool (step + 1))) "action" (.str "none"))
            && (truthy (dGetD (refl (step + 1) (tool (step + 1))) "continue" (.bool false))
                || truthy (dGetD d "continue" (.bool false)))) = true := by
          rw [Bool.and_eq_true, Bool.or_eq_true]
          exact ⟨h1, h2⟩
        rw [hc] at hb
        exact Bool.noConfusion hb
  · intro refl tool₁ tool₂ userText rem d step ctx fin h
    exact chainGo_length_tool_congr refl tool₁ tool₂ userText h rem d step ctx ctx fin fin rfl

/-! ### C10: split_message lemmas -/

/-- A found last-occurrence index is inside the list. -/
theorem rfindIdx_lt_length (c : Char) (cs : List Char) (p : Nat)
    (h : rfindIdx c cs = some p) : p < cs.length := by
  unfold rfindIdx at h
  cases hf : cs.reverse.findIdx? (fun x => x = c) with
  | none => rw [hf] at h; exact absurd h (by simp)
  | some j =>
    rw [hf] at h
    have hjp : p = cs.length - 1 - j := by
      simpa using h.symm
    have hne : cs.length ≠ 0 := by
      intro h0
      have : cs = [] := List.length_eq_zero.mp h0
      subst this
      simp [List.findIdx?] at hf
    omega

/-- The split position chosen by one iteration is positive and at most
`maxLen`, provided `maxLen ≥ 2` and the prefix is not longer than
`maxLen`. -/
theorem choosePos_bounds (prefixChars : List Char) (maxLen : Nat)
    (h2 : 2 ≤ maxLen) (hp : prefixChars.length ≤ maxLen) :
    1 ≤ choosePos prefixChars maxLen ∧ choosePos prefixChars maxLen ≤ maxLen := by
  unfold choosePos
  have hhalf : 1 ≤ maxLen / 2 := by omega
  cases hn : rfindIdx '\n' prefixChars with
  | some p =>
    have hlt := rfindIdx_lt_length _ _ _ hn
    by_cases hcut : p < maxLen / 2
    · simp only [hcut, if_true]
      cases hs : rfindIdx ' ' prefixChars with
      | some q =>
        have hltq := rfindIdx_lt_length _ _ _ hs
        by_cases hq : q < maxLen / 2
        · simp [hq]; omega
        · simp [hq]; omega
      | none => simp; omega
    · simp only [hcut, if_false]
      omega
  | none =>
    cases hs : rfindIdx ' ' prefixChars with
    | some q =>
      have hltq := rfindIdx_lt_length _ _ _ hs
      by_cases hq : q < maxLen / 2
      · simp [hq]; omega
      · simp [hq]; omega
    | none => simp; omega

/-- Auxiliary: `dropWhile` never lengthens a list. -/
theorem length_dropWhile_le {α : Type} (p : α → Bool) (l : List α) :
    (l.dropWhile p).length ≤ l.length := by
  induction l with
  | nil => simp
  | cons a t ih =>
    by_cases h : p a
    · rw [List.dropWhile_cons_of_pos h]
      simp only [List.length_cons]
      omega
    · rw [List.dropWhile_cons_of_neg h]

/-- Full specification of the `split_message` loop: with enough fuel and
`maxLen ≥ 2` it succeeds, every chunk fits and is non-empty, and the
chunks interleaved with the newline runs dropped at the boundaries
reassemble the input. -/
theorem splitGo_spec :
    ∀ (fuel : Nat) (text : List Char) (maxLen : Nat),
      2 ≤ maxLen → text.length < fuel →
      ∃ cs, splitGo fuel text maxLen = some cs
        ∧ (∀ c ∈ cs, c.length ≤ maxLen)
        ∧ (∀ c ∈ cs, c ≠ [])
        ∧ ∃ seps, seps.length = cs.length
            ∧ (∀ s ∈ seps, ∀ ch ∈ s, ch = '\n')
            ∧ (List.zipWith (fun c s => c ++ s) cs seps).flatten = text := by
  intro fuel
  induction fuel with
  | zero => intro text maxLen h2 hlen; omega
  | succ n ih =>
    intro text maxLen h2 hlen
    by_cases he : text.isEmpty
    · refine ⟨[], ?_, by simp, by simp, [], by simp, by simp, ?_⟩
      · simp [splitGo, he]
      · simp [List.isEmpty_iff.mp he]
    · by_cases hsmall : text.length ≤ maxLen
      · refine ⟨[text], ?_, by simpa using hsmall, ?_, [[]], by simp, by simp, by simp⟩
        · simp [splitGo, he, hsmall]
        · simpa [List.isEmpty_iff] using he
      · have hbig : maxLen < text.length := by omega
        have hbounds := choosePos_bounds (text.take maxLen) maxLen h2 (by simp)
        set sp := choosePos (text.take maxLen) maxLen with hsp
        have hrest : ((text.drop sp).dropWhile (fun c => c = '\n')).length < n := by
          have hd1 : ((text.drop sp).dropWhile (fun c => c = '\n')).length
              ≤ (text.drop sp).length := length_dropWhile_le _ _
          have hd2 : (text.drop sp).length = text.length - sp := by simp
          omega
        obtain ⟨cs, hsplit, hle, hne, seps, hslen, hsnl, hglue⟩ :=
          ih ((text.drop sp).dropWhile (fun c => c = '\n')) maxLen h2 hrest
        refine ⟨text.take sp :: cs, ?_, ?_, ?_,
          (text.drop sp).takeWhile (fun c => c = '\n') :: seps, by simp [hslen], ?_, ?_⟩
        · simp only [splitGo, he, hsmall, if_false, Bool.false_eq_true]
          rw [← hsp, hsplit]
          rfl
        · intro c hc
          rcases List.mem_cons.mp hc with hc | hc
          · subst hc
            simp only [List.length_take]
            omega
          · exact hle c hc
        · intro c hc
          rcases List.mem_cons.mp hc with hc | hc
          · subst hc
            have hlc : (text.take sp).length = sp := by
              simp only [List.length_take]
              omega
            intro hnil
            rw [hnil] at hlc
            simp at hlc
            omega
          · exact hne c hc
        · intro s hs
          rcases List.mem_cons.mp hs with hs | hs
          · subst hs
            intro ch hch
            have hp := List.mem_takeWhile_imp hch
            exact of_decide_eq_true hp
          · exact hsnl s hs
        · simp only [List.zipWith_cons_cons, List.flatten_cons, hglue]
          rw [List.append_assoc, List.takeWhile_append_dropWhile, List.take_append_drop]

/-- C10: for every text and every `maxLen ≥ 2`, `split_message`
terminates with chunks that each fit in `maxLen`, are non-empty when
the input is, and reassemble the input once the newline runs stripped
at the chunk boundaries are reinserted. -/
theorem c10_split_message :
    ∀ (text : String) (maxLen : Nat), 2 ≤ maxLen →
      ∃ chunks, split_message text maxLen = some chunks
        ∧ (∀ c ∈ chunks, c.length ≤ maxLen)
        ∧ (text ≠ "" → ∀ c ∈ chunks, c ≠ "")
        ∧ ∃ seps : List (List Char), seps.length = chunks.length
            ∧ (∀ s ∈ seps, ∀ ch ∈ s, ch = '\n')
            ∧ (List.zipWith (fun (c : String) s => c.data ++ s) chunks seps).flatten
                = text.data := by
  intro text maxLen h2
  unfold split_message
  by_cases hsmall : text.length ≤ maxLen
  · refine ⟨[text], by simp [hsmall], by simpa using hsmall,
      fun hne c hc => ?_, [[]], by simp, by simp, by simp⟩
    rw [List.mem_singleton.mp hc]
    exact hne
  · simp only [hsmall, if_false]
    obtain ⟨cs, hsplit, hle, hne, seps, hslen, hsnl, hglue⟩ :=
      splitGo_spec (text.length + 1) text.data maxLen h2 (Nat.lt_succ_self _)
    refine ⟨cs.map String.mk, by simp [hsplit], ?_, ?_, seps, by simpa using hslen,
      hsnl, ?_⟩
    · intro c hc
      obtain ⟨l, hl, rfl⟩ := List.mem_map.mp hc
      simpa using hle l hl
    · intro _ c hc
      obtain ⟨l, hl, rfl⟩ := List.mem_map.mp hc
      have hnil := hne l hl
      intro hmk
      apply hnil
      have hdata : (String.mk l).data = ("" : String).data := by rw [hmk]
      simpa using hdata
    · rw [List.zipWith_map_left]
      exact hglue

/-! ### C9: task classification -/

/-- C9: the classifier is a pure total function that returns
`"creative"` exactly when a creative-signal word occurs in the
lowercased message, `"precise"` exactly when no creative signal but
some precise signal occurs, `"balanced"` exactly when neither does; a
message matching both sets is classified `"creative"` because the
creative set is checked first; and classification only depends on the
lowercased text, hence is case-insensitive. -/
theorem c9_classify_task :
    ∀ s t : String,
      (classify_task s = "creative" ↔
        ∃ w ∈ creative_signals, subIn w.data (s.data.map pyLower) = true)
      ∧ (classify_task s = "precise" ↔
          ((∀ w ∈ creative_signals, subIn w.data (s.data.map pyLower) = false)
           ∧ ∃ w ∈ precise_signals, subIn w.data (s.data.map pyLower) = true))
      ∧ (classify_task s = "balanced" ↔
          ((∀ w ∈ creative_signals, subIn w.data (s.data.map pyLower) = false)
           ∧ ∀ w ∈ precise_signals, subIn w.data (s.data.map pyLower) = false))
      ∧ ((∃ w ∈ creative_signals, subIn w.data (s.data.map pyLower) = true) →
         (∃ w ∈ precise_signals, subIn w.data (s.data.map pyLower) = true) →
         classify_task s = "creative")
      ∧ (s.data.map pyLower = t.data.map pyLower →
         classify_task s = classify_task t) := by
  intro s t
  have hcase : (classify_task s = "creative"
        ∧ creative_signals.any (fun w => subIn w.data (s.data.map pyLower)) = true)
      ∨ (classify_task s = "precise"
        ∧ creative_signals.any (fun w => subIn w.data (s.data.map pyLower)) = false
        ∧ precise_signals.any (fun w => subIn w.data (s.data.map pyLower)) = true)
      ∨ (classify_task s = "balanced"
        ∧ creative_signals.any (fun w => subIn w.data (s.data.map pyLower)) = false
        ∧ precise_signals.any (fun w => subIn w.data (s.data.map pyLower)) = false) := by
    by_cases ha : creative_signals.any (fun w => subIn w.data (s.data.map pyLower)) = true
    · exact Or.inl ⟨by simp [classify_task, ha], ha⟩
    · rw [Bool.not_eq_true] at ha
      by_cases hb : precise_signals.any (fun w => subIn w.data (s.data.map pyLower)) = true
      · exact Or.inr (Or.inl ⟨by simp [classify_task, ha, hb], ha, hb⟩)
      · rw [Bool.not_eq_true] at hb
        exact Or.inr (Or.inr ⟨by simp [classify_task, ha, hb], ha, hb⟩)
  refine ⟨?_, ?_, ?_, ?_, ?_⟩
  · constructor
    · intro h
      rcases hcase with ⟨-, ha⟩ | ⟨hcl, -, -⟩ | ⟨hcl, -, -⟩
      · exact List.any_eq_true.mp ha
      · rw [hcl] at h; exact absurd h (by decide)
      · rw [hcl] at h; exact absurd h (by decide)
    · intro hex
      rcases hcase with ⟨hcl, -⟩ | ⟨-, ha, -⟩ | ⟨-, ha, -⟩
      · exact hcl
      · rw [List.any_eq_false] at ha
        obtain ⟨w, hw, hww⟩ := hex
        exact absurd hww (by simp [ha w hw])
      · rw [List.any_eq_false] at ha
        obtain ⟨w, hw, hww⟩ := hex
        exact absurd hww (by simp [ha w hw])
  · constructor
    · intro h
      rcases hcase with ⟨hcl, -⟩ | ⟨-, ha, hb⟩ | ⟨hcl, -, -⟩
      · rw [hcl] at h; exact absurd h (by decide)
      · rw [List.any_eq_false] at ha
        exact ⟨fun w hw => by simpa using ha w hw, List.any_eq_true.mp hb⟩
      · rw [hcl] at h; exact absurd h (by decide)
    · rintro ⟨hall, hex⟩
      rcases hcase with ⟨-, ha⟩ | ⟨hcl, -, -⟩ | ⟨-, -, hb⟩
      · obtain ⟨w, hw, hww⟩ := List.any_eq_true.mp ha
        exact absurd hww (by simp [hall w hw])
      · exact hcl
      · rw [List.any_eq_false] at hb
        obtain ⟨w, hw, hww⟩ := hex
        exact absurd hww (by simp [hb w hw])
  · constructor
    · intro h
      rcases hcase with ⟨hcl, -⟩ | ⟨hcl, -, -⟩ | ⟨-, ha, hb⟩
      · rw [hcl] at h; exact absurd h (by decide)
      · rw [hcl] at h; exact absurd h (by decide)
      · rw [List.any_eq_false] at ha
        rw [List.any_eq_false] at hb
        exact ⟨fun w hw => by simpa using ha w hw, fun w hw => by simpa using hb w hw⟩
    · rintro ⟨hca, hcb⟩
      rcases hcase with ⟨-, ha⟩ | ⟨-, -, hb⟩ | ⟨hcl, -, -⟩
      · obtain ⟨w, hw, hww⟩ := List.any_eq_true.mp ha
        exact absurd hww (by simp [hca w hw])
      · obtain ⟨w, hw, hww⟩ := List.any_eq_true.mp hb
        exact absurd hww (by simp [hcb w hw])
      · exact hcl
  · intro hex1 hex2
    rcases hcase with ⟨hcl, -⟩ | ⟨-, ha, -⟩ | ⟨-, ha, -⟩
    · exact hcl
    · rw [List.any_eq_false] at ha
      obtain ⟨w, hw, hww⟩ := hex1
      exact absurd hww (by simp [ha w hw])
    · rw [List.any_eq_false] at ha
      obtain ⟨w, hw, hww⟩ := hex1
      exact absurd hww (by simp [ha w hw])
  · intro h
    simp only [classify_task]
    rw [h]

/-! ### C8: tool dispatch -/

/-- Boolean null test against propositional disequality. -/
theorem isNull_eq_false_iff (v : JVal) : isNull v = false ↔ v ≠ JVal.null := by
  cases v <;> simp [isNull]

/-- C8: `dispatch_tool` is total (it never raises): an action missing
from the registry yields a failed ToolResult carrying the unknown-tool
message; a registered handler is invoked on exactly the parameters with
the None-valued entries dropped; and a TypeError or any other handler
exception comes back as a failed ToolResult with return code 1. -/
theorem c8_dispatch_tool :
    ∀ (registry : ToolRegistry) (action : String) (parameters : PyDict),
      (lookupTool registry action = none →
        (dispatch_tool registry action parameters).success = false
        ∧ dispatch_tool registry action parameters
            = ⟨false, "", "Unknown tool: " ++ action ++ ". Available: "
                ++ pyListRepr (registry.map Prod.fst), 1, "", ""⟩)
      ∧ (∀ f, lookupTool registry action = some f →
          (∀ r, f (filterNoneParams parameters) = .ok r →
            dispatch_tool registry action parameters = r)
          ∧ (∀ e, f (filterNoneParams parameters) = .typeError e →
            dispatch_tool registry action parameters
              = ⟨false, "", "Invalid parameters for " ++ action ++ ": " ++ e, 1, "", ""⟩)
          ∧ (∀ e, f (filterNoneParams parameters) = .exc e →
            dispatch_tool registry action parameters
              = ⟨false, "", "Tool execution error: " ++ e, 1, "", ""⟩))
      ∧ (∀ k v, (k, v) ∈ filterNoneParams parameters
          ↔ ((k, v) ∈ parameters ∧ v ≠ JVal.null)) := by
  intro registry action parameters
  refine ⟨?_, ?_, ?_⟩
  · intro hnone
    unfold dispatch_tool
    rw [hnone]
    exact ⟨rfl, rfl⟩
  · intro f hf
    refine ⟨?_, ?_, ?_⟩
    · intro r hr
      unfold dispatch_tool
      simp only [hf, hr]
    · intro e he
      unfold dispatch_tool
      simp only [hf, he]
    · intro e he
      unfold dispatch_tool
      simp only [hf, he]
  · intro k v
    unfold filterNoneParams
    rw [List.mem_filter]
    simp only [Bool.not_eq_true']
    rw [isNull_eq_false_iff]

/-- Concrete tool handler used by the C8 witness. -/
def wHandler : PyDict → HandlerOutcome := fun ps =>
  if ps.isEmpty then .ok ⟨true, "ran", "", 0, "", ""⟩ else .typeError "unexpected"

/-- Singleton registry used by the C8 witness. -/
def wRegistry : ToolRegistry := [("echo", wHandler)]

/-- Witness for C8: an unregistered action fails without raising, and a
null-valued parameter is filtered out before the handler runs. -/
theorem c8_dispatch_tool_witness :
    (dispatch_tool wRegistry "missing" []).success = false
    ∧ dispatch_tool wRegistry "echo" [("x", JVal.null)] = ⟨true, "ran", "", 0, "", ""⟩ :=
  ⟨((c8_dispatch_tool wRegistry "missing" []).1 rfl).1,
   ((c8_dispatch_tool wRegistry "echo" [("x", JVal.null)]).2.1 wHandler rfl).1 _ rfl⟩

/-! ### C3: decision controller field defaulting -/

/-- `setdefault` for an unrelated key leaves presence unchanged. -/
theorem hasKey_setdefault_ne (d : PyDict) (k k2 : String) (v : JVal)
    (h : k2 ≠ k) : hasKey (setdefault d k2 v) k = hasKey d k := by
  unfold setdefault
  by_cases h2 : hasKey d k2 = true
  · simp [h2]
  · simp [h2, hasKey_append, h]

/-- `setdefault` for an unrelated key leaves lookups unchanged. -/
theorem dGet_setdefault_ne (d : PyDict) (k k2 : String) (v : JVal)
    (h : k2 ≠ k) : dGet (setdefault d k2 v) k = dGet d k := by
  unfold setdefault
  by_cases h2 : hasKey d k2 = true
  · simp [h2]
  · simp [h2, dGet_append_ne d k k2 v h]

/-- The five-fold `setdefault` of `think` makes all five keys present. -/
theorem hasKey_setdefaultFive (fs : PyDict) (k : String) (hk : k ∈ fiveKeys) :
    hasKey (setdefaultFive fs) k = true := by
  simp only [fiveKeys, List.mem_cons, List.not_mem_nil, or_false] at hk
  unfold setdefaultFive
  rcases hk with rfl | rfl | rfl | rfl | rfl
  · apply hasKey_setdefault_mono
    apply hasKey_setdefault_mono
    apply hasKey_setdefault_mono
    apply hasKey_setdefault_mono
    exact hasKey_setdefault_self fs "thought" _
  · apply hasKey_setdefault_mono
    apply hasKey_setdefault_mono
    apply hasKey_setdefault_mono
    exact hasKey_setdefault_self _ "action" _
  · apply hasKey_setdefault_mono
    apply hasKey_setdefault_mono
    exact hasKey_setdefault_self _ "parameters" _
  · apply hasKey_setdefault_mono
    exact hasKey_setdefault_self _ "response" _
  · exact hasKey_setdefault_self _ "continue" _

/-- Five-key presence of concrete fallback dicts. -/
theorem hasKey_errorDecision (e : String) (k : String) (hk : k ∈ fiveKeys) :
    hasKey (errorDecision e) k = true := by
  simp only [fiveKeys, List.mem_cons, List.not_mem_nil, or_false] at hk
  rcases hk with rfl | rfl | rfl | rfl | rfl <;>
    simp [errorDecision, hasKey]

/-- Five-key presence of the non-JSON fallback dict. -/
theorem hasKey_fallbackDecision (raw : String) (k : String) (hk : k ∈ fiveKeys) :
    hasKey (fallbackDecision raw) k = true := by
  simp only [fiveKeys, List.mem_cons, List.not_mem_nil, or_false] at hk
  rcases hk with rfl | rfl | rfl | rfl | rfl <;>
    simp [fallbackDecision, hasKey]

/-- Five-key presence of the loop-exhaustion dict. -/
theorem hasKey_unexpectedDecision (k : String) (hk : k ∈ fiveKeys) :
    hasKey unexpectedDecision k = true := by
  simp only [fiveKeys, List.mem_cons, List.not_mem_nil, or_false] at hk
  rcases hk with rfl | rfl | rfl | rfl | rfl <;>
    simp [unexpectedDecision, hasKey]

/-- Every dict the retry loop can return has the five keys present. -/
theorem thinkGo_hasKey_five (calls : Nat → Except String String) (base : ℚ)
    (retries : Nat) :
    ∀ (rem attempt : Nat) (trace : List CallRec) (k : String), k ∈ fiveKeys →
      hasKey (thinkGo calls base retries rem attempt trace).2 k = true := by
  intro rem
  induction rem with
  | zero =>
    intro attempt trace k hk
    exact hasKey_unexpectedDecision k hk
  | succ n ih =>
    intro attempt trace k hk
    simp only [thinkGo]
    split
    · split
      · exact hasKey_errorDecision _ k hk
      · exact ih _ _ k hk
    · split
      · exact hasKey_setdefaultFive _ k hk
      · split
        · exact hasKey_errorDecision _ k hk
        · exact ih _ _ k hk
      · split
        · exact ih _ _ k hk
        · exact hasKey_fallbackDecision _ k hk

/-- C3 (amended): every dict returned by `Brain.think` — extraction
success, retries exhausted, service error, and the unreachable
loop-exhaustion path — has all five Decision fields present, and the
extraction-success defaulting fills exactly the missing fields with
`thought=""`, `action="none"`, `parameters={}`,
`response="I processed your request."`, `continue=false` while leaving
supplied fields (their values and hence their types) untouched; `think`
never raises, which the embedding witnesses by being a total
function. -/
theorem c3_think_field_complete :
    ∀ (calls : Nat → Except String String) (msg : String) (retries : Nat),
      (∀ k, k ∈ fiveKeys → hasKey (thinkWith calls msg retries).2 k = true)
      ∧ (∀ fs : PyDict, ∀ k, k ∈ fiveKeys → hasKey fs k = false →
          dGet (setdefaultFive fs) k = some (fieldDefault k))
      ∧ (∀ fs : PyDict, ∀ k, hasKey fs k = true →
          dGet (setdefaultFive fs) k = dGet fs k) := by
  intro calls msg retries
  refine ⟨?_, ?_, ?_⟩
  · intro k hk
    exact thinkGo_hasKey_five calls _ retries retries 0 [] k hk
  · intro fs k hk hmiss
    simp only [fiveKeys, List.mem_cons, List.not_mem_nil, or_false] at hk
    unfold setdefaultFive fieldDefault
    rcases hk with rfl | rfl | rfl | rfl | rfl
    · rw [dGet_setdefault_ne _ _ _ _ (by decide),
        dGet_setdefault_ne _ _ _ _ (by decide),
        dGet_setdefault_ne _ _ _ _ (by decide),
        dGet_setdefault_ne _ _ _ _ (by decide),
        dGet_setdefault_of_missing _ _ _ hmiss]
      rfl
    · rw [dGet_setdefault_ne _ _ _ _ (by decide),
        dGet_setdefault_ne _ _ _ _ (by decide),
        dGet_setdefault_ne _ _ _ _ (by decide),
        dGet_setdefault_of_missing _ _ _
          (by rw [hasKey_setdefault_ne _ _ _ _ (by decide)]; exact hmiss)]
      rfl
    · rw [dGet_setdefault_ne _ _ _ _ (by decide),
        dGet_setdefault_ne _ _ _ _ (by decide),
        dGet_setdefault_of_missing _ _ _
          (by rw [hasKey_setdefault_ne _ _ _ _ (by decide),
                hasKey_setdefault_ne _ _ _ _ (by decide)]; exact hmiss)]
      rfl
    · rw [dGet_setdefault_ne _ _ _ _ (by decide),
        dGet_setdefault_of_missing _ _ _
          (by rw [hasKey_setdefault_ne _ _ _ _ (by decide),
                hasKey_setdefault_ne _ _ _ _ (by decide),
                hasKey_setdefault_ne _ _ _ _ (by decide)]; exact hmiss)]
      rfl
    · rw [dGet_setdefault_of_missing _ _ _
          (by rw [hasKey_setdefault_ne _ _ _ _ (by decide),
                hasKey_setdefault_ne _ _ _ _ (by decide),
                hasKey_setdefault_ne _ _ _ _ (by decide),
                hasKey_setdefault_ne _ _ _ _ (by decide)]; exact hmiss)]
      rfl
  · intro fs k hk
    unfold setdefaultFive
    have h1 := hasKey_setdefault_mono fs k "thought" (.str "") hk
    have h2 := hasKey_setdefault_mono _ k "action" (.str "none") h1
    have h3 := hasKey_setdefault_mono _ k "parameters" (.obj []) h2
    have h4 := hasKey_setdefault_mono _ k "response" (.str "I processed your request.") h3
    rw [dGet_setdefault_of_hasKey _ _ "continue" _ h4,
      dGet_setdefault_of_hasKey _ _ "response" _ h3,
      dGet_setdefault_of_hasKey _ _ "parameters" _ h2,
      dGet_setdefault_of_hasKey _ _ "action" _ h1,
      dGet_setdefault_of_hasKey _ _ "thought" _ hk]

/-- Witness for C3: a raw output with no extractable record still
produces a field-complete decision, and the defaulting fills missing
fields while keeping supplied ones. -/
theorem c3_think_field_complete_witness :
    hasKey (thinkWith (fun _ => .ok "just prose") "hi" 3).2 "response" = true
    ∧ dGet (setdefaultFive [("action", JVal.str "run")]) "thought" = some (JVal.str "")
    ∧ dGet (setdefaultFive [("action", JVal.str "run")]) "action" = some (JVal.str "run") :=
  ⟨(c3_think_field_complete (fun _ => .ok "just prose") "hi" 3).1 "response" (by decide),
   by
    rw [(c3_think_field_complete (fun _ => .ok "just prose") "hi" 3).2.1
      [("action", JVal.str "run")] "thought" (by decide) (by decide)]
    rfl,
   by
    rw [(c3_think_field_complete (fun _ => .ok "just prose") "hi" 3).2.2
      [("action", JVal.str "run")] "action" (by decide)]
    rfl⟩

/-- Counterexample for C3 as stated: when the model supplies a field
with the wrong type, `think` keeps it as is — here `action` comes back
as the integer 5, so the returned Decision is not correctly typed. -/
theorem c3_counterexample :
    dGet (thinkWith (fun _ => .ok "\x7b\"action\": 5\x7d") "hello" 3).2 "action"
      = some (JVal.num 5)
    ∧ decisionWellTyped (thinkWith (fun _ => .ok "\x7b\"action\": 5\x7d") "hello" 3).2
      = false := ⟨rfl, rfl⟩

/-! ### C6: reflection field defaulting -/

/-- A present key always has a value to find. -/
theorem dGet_isSome_of_hasKey (d : PyDict) (k : String)
    (h : hasKey d k = true) : ∃ v, dGet d k = some v := by
  cases hf : d.reverse.find? (fun p => p.1 == k) with
  | some p => exact ⟨p.2, by simp [dGet, hf]⟩
  | none =>
    exfalso
    rw [List.find?_eq_none] at hf
    unfold hasKey at h
    obtain ⟨p, hp, hpk⟩ := List.any_eq_true.mp h
    exact absurd hpk (by simpa using hf p (List.mem_reverse.mpr hp))

/-- Five-key presence of the reflection except-clause dict. -/
theorem hasKey_apiErrorDecision (tr : ToolResult) (k : String) (hk : k ∈ fiveKeys) :
    hasKey (apiErrorDecision tr) k = true := by
  simp only [fiveKeys, List.mem_cons, List.not_mem_nil, or_false] at hk
  rcases hk with rfl | rfl | rfl | rfl | rfl <;>
    simp [apiErrorDecision, hasKey]

/-- Five-key presence of the reflection else-branch dict. -/
theorem hasKey_summarizeDecision (raw : String) (k : String) (hk : k ∈ fiveKeys) :
    hasKey (summarizeDecision raw) k = true := by
  simp only [fiveKeys, List.mem_cons, List.not_mem_nil, or_false] at hk
  rcases hk with rfl | rfl | rfl | rfl | rfl <;>
    simp [summarizeDecision, hasKey]

/-- The reflection success branch only fires on a dict that already has
a `response` binding. -/
theorem reflectBranch_success_hasKey (o : Option JVal) (fs : PyDict)
    (h : reflectBranch o = .success fs) : hasKey fs "response" = true := by
  cases o with
  | none => simp [reflectBranch] at h
  | some j =>
    cases j with
    | obj gs =>
      by_cases he : gs.isEmpty
      · simp [reflectBranch, he] at h
      · by_cases hr : hasKey gs "response" = true
        · simp only [reflectBranch, he, hr, if_true, if_false, Bool.false_eq_true] at h
          cases h
          exact hr
        · simp [reflectBranch, he, hr] at h
    | null => simp [reflectBranch] at h
    | bool b => cases b <;> simp [reflectBranch] at h
    | num n => by_cases hn : n == 0 <;> simp [reflectBranch, hn] at h
    | str s =>
      by_cases hs : s == ""
      · simp [reflectBranch, hs] at h
      · by_cases hsub : subIn "response".data s.data = true <;>
          simp [reflectBranch, hs, hsub] at h
    | arr xs =>
      by_cases hx : xs.isEmpty
      · simp [reflectBranch, hx] at h
      · by_cases hm : xs.any (fun x => match x with | .str s => s == "response" | _ => false) = true <;>
          simp [reflectBranch, hx, hm] at h

/-- C6 (amended): whenever the prior decision has an `action` binding
(as every chain-loop caller guarantees), `process_tool_result` returns
— never raises — a dict in which `action`, `parameters`, `response`
and `continue` are always present; `thought` is guaranteed only on the
service-error path and on the extraction-failure path, because the
success-path defaulting omits it. -/
theorem c6_reflect_fields :
    ∀ (call : Except String String) (decision : PyDict) (tr : ToolResult),
      hasKey decision "action" = true →
      ∃ res, process_tool_result call decision tr = .ok res
        ∧ hasKey res "action" = true
        ∧ hasKey res "parameters" = true
        ∧ hasKey res "response" = true
        ∧ hasKey res "continue" = true
        ∧ (∀ e, call = .error e → ∀ k, k ∈ fiveKeys → hasKey res k = true)
        ∧ (∀ raw, call = .ok raw → extract_json raw = none →
            ∀ k, k ∈ fiveKeys → hasKey res k = true) := by
  intro call decision tr hact
  obtain ⟨v, hv⟩ := dGet_isSome_of_hasKey decision "action" hact
  cases call with
  | error e =>
    refine ⟨apiErrorDecision tr, ?_, ?_, ?_, ?_, ?_, ?_, ?_⟩
    · unfold process_tool_result
      simp only [hv]
    · exact hasKey_apiErrorDecision tr "action" (by decide)
    · exact hasKey_apiErrorDecision tr "parameters" (by decide)
    · exact hasKey_apiErrorDecision tr "response" (by decide)
    · exact hasKey_apiErrorDecision tr "continue" (by decide)
    · intro e2 _ k hk
      exact hasKey_apiErrorDecision tr k hk
    · intro raw hraw
      cases hraw
  | ok raw =>
    cases hb : reflectBranch (extract_json raw) with
    | success fs =>
      have hrfs := reflectBranch_success_hasKey _ _ hb
      refine ⟨setdefaultReflect fs, ?_, ?_, ?_, ?_, ?_, ?_, ?_⟩
      · unfold process_tool_result
        simp only [hv, hb]
      · unfold setdefaultReflect
        exact hasKey_setdefault_mono _ _ _ _
          (hasKey_setdefault_mono _ _ _ _ (hasKey_setdefault_self _ _ _))
      · unfold setdefaultReflect
        exact hasKey_setdefault_mono _ _ _ _ (hasKey_setdefault_self _ _ _)
      · unfold setdefaultReflect
        exact hasKey_setdefault_mono _ _ _ _
          (hasKey_setdefault_mono _ _ _ _ (hasKey_setdefault_mono _ _ _ _ hrfs))
      · unfold setdefaultReflect
        exact hasKey_setdefault_self _ _ _
      · intro e he
        cases he
      · intro raw2 hraw2 hex
        cases hraw2
        rw [hex] at hb
        simp [reflectBranch] at hb
    | fallback =>
      refine ⟨summarizeDecision raw, ?_, ?_, ?_, ?_, ?_, ?_, ?_⟩
      · unfold process_tool_result
        simp only [hv, hb]
      · exact hasKey_summarizeDecision raw "action" (by decide)
      · exact hasKey_summarizeDecision raw "parameters" (by decide)
      · exact hasKey_summarizeDecision raw "response" (by decide)
      · exact hasKey_summarizeDecision raw "continue" (by decide)
      · intro e he
        cases he
      · intro raw2 _ _ k hk
        exact hasKey_summarizeDecision raw k hk
    | excPath =>
      refine ⟨apiErrorDecision tr, ?_, ?_, ?_, ?_, ?_, ?_, ?_⟩
      · unfold process_tool_result
        simp only [hv, hb]
      · exact hasKey_apiErrorDecision tr "action" (by decide)
      · exact hasKey_apiErrorDecision tr "parameters" (by decide)
      · exact hasKey_apiErrorDecision tr "response" (by decide)
      · exact hasKey_apiErrorDecision tr "continue" (by decide)
      · intro e he
        cases he
      · intro raw2 _ _ k hk
        exact hasKey_apiErrorDecision tr k hk

/-- Witness for C6: on a service error the reflection falls back to a
local summary that includes all five fields. -/
theorem c6_reflect_fields_witness :
    ∃ res, process_tool_result (.error "api down") [("action", JVal.str "x")]
        ⟨false, "", "", 1, "", ""⟩ = .ok res ∧ hasKey res "thought" = true := by
  obtain ⟨res, h1, -, -, -, -, h5, -⟩ :=
    c6_reflect_fields (.error "api down") [("action", JVal.str "x")]
      ⟨false, "", "", 1, "", ""⟩ (by decide)
  exact ⟨res, h1, h5 "api down" rfl "thought" (by decide)⟩

/-- Counterexample for C6 as stated: on the extraction-success path the
returned dict lacks `thought` — the defaulting there covers only
`action`, `parameters` and `continue`. -/
theorem c6_counterexample :
    process_tool_result (.ok "\x7b\"response\": \"ok\"\x7d")
        [("action", JVal.str "list_directory")] ⟨true, "a.txt", "", 0, "", ""⟩
      = .ok [("response", JVal.str "ok"), ("action", JVal.str "none"),
             ("parameters", JVal.obj []), ("continue", JVal.bool false)]
    ∧ hasKey [("response", JVal.str "ok"), ("action", JVal.str "none"),
             ("parameters", JVal.obj []), ("continue", JVal.bool false)] "thought"
      = false := ⟨rfl, rfl⟩

/-! ### C2: extractor result shape -/

/-- A successful stage collapse keeps the stage. -/
theorem jret_eq_some (st : Stage) (j : JVal) (p : Stage × JVal)
    (h : jret st j = some p) : p.1 = st := by
  cases j <;> simp [jret] at h <;> rw [← h]

/-- The pattern-synthesis stage only builds records with all five
fields. -/
theorem patternStage_patterns (t : List Char) (j : JVal)
    (h : patternStage t = some (.patterns, j)) : hasAllFive j = true := by
  unfold patternStage at h
  cases hf : findField "response".data t with
  | none => rw [hf] at h; cases h
  | some resp =>
    rw [hf] at h
    injection h with h2
    injection h2 with h3 h4
    rw [← h4]
    simp [hasAllFive, fiveKeys, hasKey]

/-- The brace stage either tags its parses as `braces` or defers to the
pattern stage, so a `patterns`-tagged result has all five fields. -/
theorem braceStage_patterns (t : List Char) (j : JVal)
    (h : braceStage t = some (.patterns, j)) : hasAllFive j = true := by
  unfold braceStage at h
  split at h
  · exact patternStage_patterns t j h
  · split at h
    · exact absurd (jret_eq_some _ _ _ h) (by simp)
    · split at h
      · exact absurd (jret_eq_some _ _ _ h) (by simp)
      · split at h
        · exact absurd (jret_eq_some _ _ _ h) (by simp)
        · exact patternStage_patterns t j h

/-- Any `patterns`-tagged extraction result has all five fields. -/
theorem extractCore_patterns (cs : List Char) (j : JVal)
    (h : extractCore cs = some (.patterns, j)) : hasAllFive j = true := by
  simp only [extractCore] at h
  split at h
  · cases h
  · split at h
    · exact absurd (jret_eq_some _ _ _ h) (by simp)
    · split at h
      · split at h
        · exact absurd (jret_eq_some _ _ _ h) (by simp)
        · exact braceStage_patterns _ j h
      · exact braceStage_patterns _ j h

/-- C2 (amended): the extractor is a total function of the raw text (it
never raises); it returns `none` whenever the tag-stripped text is
empty; it otherwise returns either `none` or some parsed JSON value —
not necessarily a record with the five Decision fields, whose
defaulting is the controller's job — and whenever the result comes from
the last-resort pattern synthesis it does carry all five fields. -/
theorem c2_extract_json :
    ∀ s : String,
      (strip_thinking_tags s.data = [] → extract_json s = none)
      ∧ (∀ j, extractCore s.data = some (Stage.patterns, j) → hasAllFive j = true)
      ∧ (extract_json s = none ∨ ∃ j, extract_json s = some j) := by
  intro s
  refine ⟨?_, ?_, ?_⟩
  · intro hempty
    unfold extract_json extractCore
    rw [hempty]
    rfl
  · intro j h
    exact extractCore_patterns s.data j h
  · cases h : extract_json s with
    | none => exact Or.inl rfl
    | some j => exact Or.inr ⟨j, rfl⟩

/-- Witness for C2: a pure reasoning block strips to nothing and yields
`none`, and a pattern-synthesized record carries all five fields. -/
theorem c2_extract_json_witness :
    extract_json "<think>only thoughts</think>" = none
    ∧ hasAllFive (JVal.obj [("thought", JVal.str ""), ("action", JVal.str "none"),
        ("parameters", JVal.obj []), ("response", JVal.str "hi"),
        ("continue", JVal.bool false)]) = true :=
  ⟨(c2_extract_json "<think>only thoughts</think>").1 rfl,
   (c2_extract_json "note \"response\": \"hi\" here").2.1
     (JVal.obj [("thought", JVal.str ""), ("action", JVal.str "none"),
       ("parameters", JVal.obj []), ("response", JVal.str "hi"),
       ("continue", JVal.bool false)]) rfl⟩

/-- Counterexample for C2 as stated: the non-empty raw output `{}`
parses directly to an empty record, which the extractor returns even
though none of the five fields is present. -/
theorem c2_counterexample :
    ("\x7b\x7d" : String) ≠ ""
    ∧ extract_json "\x7b\x7d" = some (JVal.obj [])
    ∧ hasAllFive (JVal.obj []) = false :=
  ⟨by decide, rfl, rfl⟩

/-! ### C4: retry ladder of the decision controller -/

/-- The call trace the retry loop produces when every attempt fails
extraction: one record per remaining attempt, with the effective
temperature and the corrective-message flag of that attempt. -/
def callTrace (base : ℚ) (raws : Nat → String) : Nat → Nat → List CallRec
  | _, 0 => []
  | attempt, rem + 1 =>
    ⟨effectiveTemperature base attempt, attempt != 0, .ok (raws attempt)⟩ ::
      callTrace base raws (attempt + 1) rem

/-- Length of the failure trace. -/
theorem callTrace_length (base : ℚ) (raws : Nat → String) :
    ∀ (rem attempt : Nat), (callTrace base raws attempt rem).length = rem := by
  intro rem
  induction rem with
  | zero => intro attempt; rfl
  | succ n ih => intro attempt; simp [callTrace, ih]

/-- Entries of the failure trace. -/
theorem callTrace_getD (base : ℚ) (raws : Nat → String) (d : CallRec) :
    ∀ (rem attempt k : Nat), k < rem →
      (callTrace base raws attempt rem).getD k d =
        ⟨effectiveTemperature base (attempt + k), (attempt + k) != 0,
         .ok (raws (attempt + k))⟩ := by
  intro rem
  induction rem with
  | zero => intro attempt k hk; omega
  | succ n ih =>
    intro attempt k hk
    cases k with
    | zero => simp [callTrace]
    | succ m =>
      have := ih (attempt + 1) m (by omega)
      simp only [callTrace, List.getD_cons_succ]
      rw [this]
      have harr : attempt + 1 + m = attempt + (m + 1) := by omega
      rw [harr]

/-- Closed form of the retry loop when every remaining call returns
unparseable text: the trace grows by exactly one record per attempt and
the loop ends in the fallback decision built from the last raw text. -/
theorem thinkGo_all_fail (calls : Nat → Except String String)
    (raws : Nat → String) (base : ℚ) (retries : Nat)
    (hall : ∀ k, k < retries → calls k = .ok (raws k) ∧ extract_json (raws k) = none) :
    ∀ (rem attempt : Nat) (trace : List CallRec),
      attempt + rem = retries → 1 ≤ rem →
      thinkGo calls base retries rem attempt trace =
        (trace ++ callTrace base raws attempt rem,
         fallbackDecision (raws (retries - 1))) := by
  intro rem
  induction rem with
  | zero => intro attempt trace h1 h2; omega
  | succ n ih =>
    intro attempt trace hsum hpos
    have hlt : attempt < retries := by omega
    obtain ⟨hcall, hext⟩ := hall attempt hlt
    simp only [thinkGo, hcall, hext]
    by_cases hn : n = 0
    · subst hn
      have hfin : ¬ attempt < retries - 1 := by omega
      rw [if_neg hfin]
      have hatt : retries - 1 = attempt := by omega
      rw [hatt]
      simp [callTrace]
    · have hlt2 : attempt < retries - 1 := by omega
      rw [if_pos hlt2]
      refine (ih (attempt + 1) _ (by omega) (by omega)).trans ?_
      simp [callTrace]

/-- The base temperature selected from any classification is at least
the retry floor 0.1. -/
theorem baseTemperature_ge (t : String) : (1/10 : ℚ) ≤ baseTemperature t := by
  unfold baseTemperature
  split
  · norm_num [CONFIG]
  · split
    · norm_num [CONFIG]
    · norm_num

/-- The per-attempt effective temperature never increases along the
attempts. -/
theorem effectiveTemperature_antitone (base : ℚ) (hbase : (1/10 : ℚ) ≤ base)
    (j k : Nat) (hjk : j ≤ k) :
    effectiveTemperature base k ≤ effectiveTemperature base j := by
  unfold effectiveTemperature
  by_cases hj : j = 0
  · subst hj
    by_cases hk : k = 0
    · simp [hk]
    · rw [if_neg hk, if_pos rfl]
      apply max_le hbase
      have hge : (0:ℚ) ≤ (1/5) * (k : ℚ) := by positivity
      linarith
  · have hk : ¬ k = 0 := by omega
    rw [if_neg hk, if_neg hj]
    apply max_le_max le_rfl
    have hc : (j : ℚ) ≤ (k : ℚ) := by exact_mod_cast hjk
    have : (1/5 : ℚ) * j ≤ (1/5) * k := by linarith
    linarith

/-- C4: when every model call returns unparseable prose, `think` makes
exactly `retries` calls (`CONFIG.MAX_RETRIES`, default 3); attempt `k`
runs at the base temperature for `k = 0` and at
`max 0.1 (base - 0.2 k)` for `k > 0`, a non-increasing sequence, with
the corrective instruction appended exactly on the retry attempts
`k > 0`; and the returned decision is the fallback with
`action="none"`, `continue=false` and `response` equal to the last raw
text tag-stripped, or the generic sentence when that is empty. -/
theorem c4_retry_ladder :
    ∀ (calls : Nat → Except String String) (raws : Nat → String) (msg : String)
      (retries : Nat), 1 ≤ retries →
      (∀ k, k < retries → calls k = .ok (raws k) ∧ extract_json (raws k) = none) →
      (thinkWith calls msg retries).1.length = retries
      ∧ (∀ k, k < retries →
          (thinkWith calls msg retries).1.getD k ⟨0, false, .ok ""⟩ =
            ⟨effectiveTemperature (baseTemperature (classify_task msg)) k, k != 0,
             .ok (raws k)⟩)
      ∧ (∀ k : Nat, 0 < k →
          effectiveTemperature (baseTemperature (classify_task msg)) k
            = max (1/10 : ℚ) (baseTemperature (classify_task msg) - (1/5) * k))
      ∧ (∀ j k : Nat, j ≤ k →
          effectiveTemperature (baseTemperature (classify_task msg)) k
            ≤ effectiveTemperature (baseTemperature (classify_task msg)) j)
      ∧ (thinkWith calls msg retries).2 = fallbackDecision (raws (retries - 1))
      ∧ dGet (fallbackDecision (raws (retries - 1))) "action" = some (.str "none")
      ∧ dGet (fallbackDecision (raws (retries - 1))) "continue" = some (.bool false)
      ∧ dGet (fallbackDecision (raws (retries - 1))) "response"
          = some (.str (if String.mk (strip_thinking_tags (raws (retries - 1)).data) ≠ ""
              then String.mk (strip_thinking_tags (raws (retries - 1)).data)
              else "I processed your request but couldn\x27t format the response properly.")) := by
  intro calls raws msg retries hpos hall
  have hrun := thinkGo_all_fail calls raws (baseTemperature (classify_task msg))
    retries hall retries 0 [] (by omega) hpos
  have hw : thinkWith calls msg retries =
      (callTrace (baseTemperature (classify_task msg)) raws 0 retries,
       fallbackDecision (raws (retries - 1))) := by
    unfold thinkWith
    rw [hrun]
    simp
  refine ⟨?_, ?_, ?_, ?_, ?_, ?_, ?_, ?_⟩
  · rw [hw]
    exact callTrace_length _ _ _ _
  · intro k hk
    rw [hw]
    have := callTrace_getD (baseTemperature (classify_task msg)) raws
      ⟨0, false, .ok ""⟩ retries 0 k hk
    simpa using this
  · intro k hk
    unfold effectiveTemperature
    rw [if_neg (by omega)]
  · intro j k hjk
    exact effectiveTemperature_antitone _ (baseTemperature_ge _) j k hjk
  · rw [hw]
  · rfl
  · rfl
  · rfl

/-- Witness for C4: three unparseable calls at the default retry
budget — three recorded calls and a fallback decision without a tool
action. -/
theorem c4_retry_ladder_witness :
    (thinkWith (fun _ => .ok "no json here") "hello" 3).1.length = 3
    ∧ dGet (thinkWith (fun _ => .ok "no json here") "hello" 3).2 "action"
        = some (JVal.str "none") := by
  have h := c4_retry_ladder (fun _ => .ok "no json here") (fun _ => "no json here")
    "hello" 3 (by decide) (fun _ _ => ⟨rfl, rfl⟩)
  refine ⟨h.1, ?_⟩
  rw [h.2.2.2.2.1]
  exact h.2.2.2.2.2.1

/-- Reflection oracle of the C5 witness: always requests another
step. -/
def wReflCont : Nat → ToolResult → PyDict := fun _ _ =>
  [("action", JVal.str "next_tool"), ("continue", JVal.bool true),
   ("response", JVal.str "next")]

/-- Failing tool oracle of the C5 witness. -/
def wToolFail : Nat → ToolResult := fun _ => ⟨false, "", "boom", 1, "", ""⟩

/-- Succeeding tool oracle of the C5 witness. -/
def wToolOk : Nat → ToolResult := fun _ => ⟨true, "fine", "", 0, "", ""⟩

/-- Initial decision of the C5 witness. -/
def wInitial : PyDict := [("action", JVal.str "go"), ("continue", JVal.bool false)]

/-- Witness for C5: with a failing tool the chain still goes past the
first dispatch because the reflected decision names a further action,
and swapping in a succeeding tool does not change the number of
dispatches. -/
theorem c5_continuation_iff_witness :
    2 ≤ (chainGo wReflCont wToolFail "u" (9 + 1) wInitial 0 [] (JVal.str "")).2.length
    ∧ (chainGo wReflCont wToolFail "u" 10 wInitial 0 [] (JVal.str "")).2.length
        = (chainGo wReflCont wToolOk "u" 10 wInitial 0 [] (JVal.str "")).2.length :=
  ⟨(c5_continuation_iff.1 wReflCont wToolFail "u" 9 wInitial 0 [] (JVal.str "")
      (by decide)).mpr ⟨by decide, Or.inl (by decide), by decide⟩,
   c5_continuation_iff.2 wReflCont wToolFail wToolOk "u" 10 wInitial 0 []
     (JVal.str "") (fun _ => rfl)⟩

/-- Witness for C9: a message matching both keyword sets classifies as
creative, and an all-caps variant classifies like its lowercase
form. -/
theorem c9_classify_task_witness :
    classify_task "write code" = "creative"
    ∧ classify_task "WRITE CODE" = classify_task "write code" :=
  ⟨(c9_classify_task "write code" "write code").2.2.2.1
      ⟨"write", by decide, by decide⟩ ⟨"code", by decide, by decide⟩,
   (c9_classify_task "WRITE CODE" "write code").2.2.2.2 (by decide)⟩

/-- Witness for C10: a concrete split exists at `maxLen = 4`. -/
theorem c10_split_message_witness :
    ∃ chunks, split_message "abcd\nef" 4 = some chunks
      ∧ (∀ c ∈ chunks, c.length ≤ 4)
      ∧ ("abcd\nef" ≠ "" → ∀ c ∈ chunks, c ≠ "")
      ∧ ∃ seps : List (List Char), seps.length = chunks.length
          ∧ (∀ s ∈ seps, ∀ ch ∈ s, ch = '\n')
          ∧ (List.zipWith (fun (c : String) s => c.data ++ s) chunks seps).flatten
              = "abcd\nef".data :=
  c10_split_message "abcd\nef" 4 (by decide)

/-! ### C7: fenced round-trip -/

/-- Characters admitted in the surrounding prose of the amended C7
statement: letters, blanks and neutral punctuation — nothing that can
open a JSON token, a fence, a reasoning tag or a brace group. -/
def proseOk (c : Char) : Bool :=
  (97 ≤ c.toNat && c.toNat ≤ 122) || (65 ≤ c.toNat && c.toNat ≤ 90) ||
    c ∈ [' ', '\n', '\t', '.', ',', '!', '?', ':', ';', '(', ')']

/-- A prose character is none of the structurally relevant ones. -/
theorem proseOk_ne (c : Char) (h : proseOk c = true) :
    c ≠ '\x7b' ∧ c ≠ '[' ∧ c ≠ '"' ∧ c ≠ '`' ∧ c ≠ '<' ∧ c ≠ '-'
    ∧ isDigitChar c = false := by
  have hne : c ≠ '\x7b' ∧ c ≠ '[' ∧ c ≠ '"' ∧ c ≠ '`' ∧ c ≠ '<' ∧ c ≠ '-' := by
    refine ⟨?_, ?_, ?_, ?_, ?_, ?_⟩ <;> (rintro rfl; revert h; decide)
  simp only [proseOk, Bool.or_eq_true, Bool.and_eq_true, decide_eq_true_eq,
    List.mem_cons, List.not_mem_nil, or_false] at h
  have hd : isDigitChar c = false := by
    rw [Bool.eq_false_iff]
    intro hdig
    simp only [isDigitChar, Bool.and_eq_true, decide_eq_true_eq] at hdig
    rcases h with ⟨h1, h2⟩ | ⟨h1, h2⟩ | rfl | rfl | rfl | rfl | rfl | rfl | rfl | rfl | rfl | rfl | rfl <;>
      first
        | omega
        | (revert hdig; decide)
  exact ⟨hne.1, hne.2.1, hne.2.2.1, hne.2.2.2.1, hne.2.2.2.2.1, hne.2.2.2.2.2, hd⟩

/-- A list containing an element that fails the predicate does not
drop to nothing. -/
theorem dropWhile_ne_nil_of_mem {α : Type} (p : α → Bool) (l : List α)
    (x : α) (hx : x ∈ l) (hpx : p x = false) : l.dropWhile p ≠ [] := by
  intro hnil
  rw [List.dropWhile_eq_nil_iff] at hnil
  rw [hnil x hx] at hpx
  cases hpx

/-- The head of a non-trivial `dropWhile` result is an element of the
original list. -/
theorem head_dropWhile_mem {α : Type} (p : α → Bool) (l : List α)
    (c : α) (rest : List α) (h : l.dropWhile p = c :: rest) : c ∈ l := by
  apply List.dropWhile_subset p
  rw [h]
  exact List.mem_cons_self c rest

/-- The opening reasoning tag cannot match at a character other than an
opening angle bracket. -/
theorem thinkOpen_not_prefix (c : Char) (rest : List Char) (hc : c ≠ '<') :
    thinkOpen.isPrefixOf (c :: rest) = false := by
  show List.isPrefixOf ('<' :: "think>".data) (c :: rest) = false
  rw [List.isPrefixOf_cons₂]
  have hb : ('<' == c) = false := by
    rw [beq_eq_false_iff_ne]
    exact fun hh => hc hh.symm
  rw [hb, Bool.false_and]

/-- Paired-tag removal is the identity on angle-bracket-free text. -/
theorem stripPairedThink_id (fuel : Nat) :
    ∀ cs : List Char, '<' ∉ cs → stripPairedThink fuel cs = cs := by
  induction fuel with
  | zero => intro cs _; rfl
  | succ n ih =>
    intro cs h
    cases cs with
    | nil => rfl
    | cons c rest =>
      have hc : c ≠ '<' := fun hh => h (by rw [hh]; exact List.mem_cons_self _ _)
      simp only [stripPairedThink, thinkOpen_not_prefix c rest hc,
        Bool.false_eq_true, if_false]
      rw [ih rest (fun hm => h (List.mem_cons_of_mem c hm))]

/-- Unterminated-tag removal is the identity on angle-bracket-free
text. -/
theorem cutAtThink_id : ∀ cs : List Char, '<' ∉ cs → cutAtThink cs = cs := by
  intro cs
  induction cs with
  | nil => intro _; rfl
  | cons c rest ih =>
    intro h
    have hc : c ≠ '<' := fun hh => h (by rw [hh]; exact List.mem_cons_self _ _)
    simp only [cutAtThink, thinkOpen_not_prefix c rest hc,
      Bool.false_eq_true, if_false]
    rw [ih (fun hm => h (List.mem_cons_of_mem c hm))]

/-- On angle-bracket-free text, tag stripping is just `strip()`. -/
theorem strip_thinking_tags_id (cs : List Char) (h : '<' ∉ cs) :
    strip_thinking_tags cs = pyStrip cs := by
  unfold strip_thinking_tags
  rw [stripPairedThink_id _ cs h, cutAtThink_id cs h]

/-- `dropWhile` over an append whose right part starts with a failing
character stops inside the left part. -/
theorem dropWhile_append_head {α : Type} (p : α → Bool) (a : List α) (c : α)
    (b : List α) (hc : p c = false) :
    (a ++ (c :: b)).dropWhile p = a.dropWhile p ++ (c :: b) := by
  rw [List.dropWhile_append]
  split
  · next hemp =>
    rw [List.isEmpty_iff] at hemp
    rw [hemp, List.dropWhile_cons, if_neg (by simp [hc]), List.nil_append]
  · rfl

/-- `strip()` of prose-wrapped rigid middle text: only the outer prose
edges are trimmed. -/
theorem pyStrip_wrapped (pre mid post : List Char) (hne : mid ≠ [])
    (hh : ∀ c, mid.head? = some c → pySpace c = false)
    (hl : ∀ c, mid.getLast? = some c → pySpace c = false) :
    pyStrip (pre ++ mid ++ post) =
      pre.dropWhile pySpace ++ mid ++ (post.reverse.dropWhile pySpace).reverse := by
  obtain ⟨c, m1, rfl⟩ : ∃ c m1, mid = c :: m1 := by
    cases mid with
    | nil => exact absurd rfl hne
    | cons x xs => exact ⟨x, xs, rfl⟩
  have hfront : (pre ++ (c :: m1) ++ post).dropWhile pySpace
      = pre.dropWhile pySpace ++ ((c :: m1) ++ post) := by
    rw [List.append_assoc]
    exact dropWhile_append_head pySpace pre c (m1 ++ post) (hh c rfl)
  obtain ⟨d, w, hw⟩ : ∃ d w, (c :: m1).reverse = d :: w := by
    cases hrev : (c :: m1).reverse with
    | nil => exact absurd (congrArg List.length hrev) (by simp)
    | cons x xs => exact ⟨x, xs, rfl⟩
  have hd : pySpace d = false := by
    apply hl
    rw [← List.head?_reverse, hw]
    rfl
  unfold pyStrip
  rw [hfront]
  rw [show pre.dropWhile pySpace ++ (c :: m1 ++ post)
      = (pre.dropWhile pySpace ++ (c :: m1)) ++ post from by simp]
  rw [List.reverse_append]
  rw [List.reverse_append]
  rw [hw]
  rw [show post.reverse ++ (d :: w ++ (pre.dropWhile pySpace).reverse)
      = post.reverse ++ (d :: (w ++ (pre.dropWhile pySpace).reverse)) from by simp]
  rw [dropWhile_append_head pySpace post.reverse d _ hd]
  have hrev2 : c :: m1 = w.reverse ++ [d] := by
    have hcongr := congrArg List.reverse hw
    simpa using hcongr
  simp [List.reverse_append, hrev2]

/-- The fence pattern cannot match at a non-backtick character. -/
theorem tryFenceAt_ne (c : Char) (cs : List Char) (hc : c ≠ '`') :
    tryFenceAt (c :: cs) = none := by
  unfold tryFenceAt
  split
  · next heq =>
    injection heq with h1 _
    exact absurd h1 hc
  · rfl

/-- The fence search skips a backtick-free prefix. -/
theorem fenceSearch_skip (rest : List Char) :
    ∀ pre : List Char, '`' ∉ pre →
      fenceSearch (pre ++ rest) = fenceSearch rest := by
  intro pre
  induction pre with
  | nil => intro _; rfl
  | cons c pre' ih =>
    intro hp
    have hc : c ≠ '`' := fun hh => hp (by rw [hh]; exact List.mem_cons_self _ _)
    show fenceSearch (c :: (pre' ++ rest)) = _
    simp only [fenceSearch, tryFenceAt_ne c _ hc, Option.none_orElse]
    exact ih (fun hm => hp (List.mem_cons_of_mem c hm))

/-- The lazy group does not stop at a closing brace with block text
still to come. -/
theorem lazyCapture_cons_ne (c : Char) (rest : List Char) (hc : c ≠ '}') :
    lazyCapture (c :: rest) = (lazyCapture rest).map (fun l => c :: l) := by
  rw [lazyCapture.eq_def]
  split
  · next heq => cases heq
  · next heq =>
    injection heq with h1 _
    exact absurd h1 hc
  · next heq =>
    injection heq with h1 h2
    subst h1
    subst h2
    rfl

/-- The lazy group stops exactly at the final closing brace of a
backtick-free block followed by a closing fence. -/
theorem lazyCapture_block (post : List Char) :
    ∀ M : List Char, M ≠ [] → M.getLast? = some '}' → '`' ∉ M →
      lazyCapture (M ++ ('\n' :: '`' :: '`' :: '`' :: post)) = some M := by
  intro M
  induction M with
  | nil => intro h _ _; exact absurd rfl h
  | cons c M' ih =>
    intro _ hlast hbt
    cases M' with
    | nil =>
      have hc : c = '}' := by simpa using hlast
      subst hc
      show lazyCapture ('}' :: ('\n' :: '`' :: '`' :: '`' :: post)) = some ['}']
      rw [lazyCapture.eq_def]
      show (if fenceFollows ('\n' :: '`' :: '`' :: '`' :: post) = true
          then some ['}']
          else (lazyCapture ('\n' :: '`' :: '`' :: '`' :: post)).map
            (fun l => '}' :: l)) = some ['}']
      rw [if_pos (by simp [fenceFollows, List.dropWhile, pySpace, List.isPrefixOf])]
    | cons c2 M'' =>
      have hlast2 : (c2 :: M'').getLast? = some '}' := by
        rw [← List.getLast?_cons_cons (a := c)]
        exact hlast
      have hbt2 : '`' ∉ (c2 :: M'') := fun hm => hbt (List.mem_cons_of_mem _ hm)
      have ihres := ih (by simp) hlast2 hbt2
      by_cases hc : c = '}'
      · subst hc
        have hmem : '}' ∈ (c2 :: M'') := List.mem_of_getLast?_eq_some hlast2
        have hne2 : (c2 :: M'').dropWhile pySpace ≠ [] :=
          dropWhile_ne_nil_of_mem pySpace _ '}' hmem (by decide)
        obtain ⟨d2, w2, hw2⟩ : ∃ d2 w2, (c2 :: M'').dropWhile pySpace = d2 :: w2 := by
          cases hcc : (c2 :: M'').dropWhile pySpace with
          | nil => exact absurd hcc hne2
          | cons x xs => exact ⟨x, xs, rfl⟩
        have hd2 : d2 ≠ '`' := by
          intro hh
          exact hbt2 (hh ▸ head_dropWhile_mem pySpace _ d2 w2 hw2)
        have hff : fenceFollows ((c2 :: M'') ++ ('\n' :: '`' :: '`' :: '`' :: post))
            = false := by
          unfold fenceFollows
          rw [List.dropWhile_append]
          have hemp : ((c2 :: M'').dropWhile pySpace).isEmpty = false := by
            rw [Bool.eq_false_iff]
            intro hh
            exact hne2 (List.isEmpty_iff.mp hh)
          rw [hemp]
          simp only [Bool.false_eq_true, if_false]
          rw [hw2]
          show List.isPrefixOf ('`' :: '`' :: '`' :: []) (d2 :: (w2 ++ _)) = false
          rw [List.isPrefixOf_cons₂]
          have hb : ('`' == d2) = false := by
            rw [beq_eq_false_iff_ne]
            exact fun hh => hd2 hh.symm
          rw [hb, Bool.false_and]
        show lazyCapture ('}' :: ((c2 :: M'') ++ ('\n' :: '`' :: '`' :: '`' :: post)))
            = some ('}' :: c2 :: M'')
        rw [lazyCapture.eq_def]
        show (if fenceFollows ((c2 :: M'') ++ ('\n' :: '`' :: '`' :: '`' :: post)) = true
            then some ['}']
            else (lazyCapture ((c2 :: M'') ++ ('\n' :: '`' :: '`' :: '`' :: post))).map
              (fun l => '}' :: l)) = some ('}' :: c2 :: M'')
        rw [hff]
        simp only [Bool.false_eq_true, if_false]
        rw [ihres]
        rfl
      · show lazyCapture (c :: ((c2 :: M'') ++ ('\n' :: '`' :: '`' :: '`' :: post)))
            = some (c :: c2 :: M'')
        rw [lazyCapture_cons_ne c _ hc, ihres]
        rfl

theorem tryFenceAt_block (Jt post : List Char)
    (hne : Jt ≠ []) (hlastJ : Jt.getLast? = some '}') (hbt : '`' ∉ Jt) :
    tryFenceAt ('`' :: '`' :: '`' :: 'j' :: 's' :: 'o' :: 'n' :: '\n' ::
        (('\x7b' :: Jt) ++ ('\n' :: '`' :: '`' :: '`' :: post)))
      = some ('\x7b' :: Jt) := by
  have hcap := lazyCapture_block post Jt hne hlastJ hbt
  rw [tryFenceAt.eq_def]
  simp only [List.cons_append]
  simp [List.isPrefixOf, List.dropWhile, pySpace, hcap]

/-- Splitting an append against a keyword prefix: the marker character
either sits inside the keyword or survives into the remainder. -/
theorem marker_in_remainder : ∀ (kw pre : List Char) (x : Char) (rest rest2 : List Char),
    pre ++ x :: rest = kw ++ rest2 → x ∈ kw ∨ ∃ s, rest2 = s ++ x :: rest := by
  intro kw
  induction kw with
  | nil =>
    intro pre x rest rest2 heq
    exact Or.inr ⟨pre, by simpa using heq.symm⟩
  | cons k kw2 ih =>
    intro pre x rest rest2 heq
    cases pre with
    | nil =>
      simp only [List.nil_append, List.cons_append] at heq
      injection heq with h1 _
      exact Or.inl (h1 ▸ List.mem_cons_self _ _)
    | cons p pre2 =>
      simp only [List.cons_append] at heq
      injection heq with _ h2
      rcases ih pre2 x rest rest2 h2 with hm | hs
      · exact Or.inl (List.mem_cons_of_mem _ hm)
      · exact Or.inr hs

/-- The head of prose text followed by a backtick marker is the marker
itself or a prose character. -/
theorem head_prose_or_backtick (pre2 rest : List Char) (c : Char) (r2 : List Char)
    (hp : ∀ c ∈ pre2, proseOk c = true)
    (heq : pre2 ++ '`' :: rest = c :: r2) : c = '`' ∨ proseOk c = true := by
  cases pre2 with
  | nil =>
    simp only [List.nil_append] at heq
    injection heq with h1 _
    exact Or.inl h1.symm
  | cons d ds =>
    simp only [List.cons_append] at heq
    injection heq with h1 _
    exact Or.inr (h1 ▸ hp d (List.mem_cons_self _ _))

/-- A number literal cannot start in prose or at a backtick. -/
theorem pNum_prose_backtick (pre2 rest : List Char)
    (hp : ∀ c ∈ pre2, proseOk c = true) :
    pNum (pre2 ++ '`' :: rest) = none := by
  obtain ⟨c, r2, heq⟩ : ∃ c r2, pre2 ++ '`' :: rest = c :: r2 := by
    cases hq : pre2 ++ '`' :: rest with
    | nil => exact absurd (congrArg List.length hq) (by simp)
    | cons x xs => exact ⟨x, xs, rfl⟩
  have hdig : isDigitChar c = false := by
    rcases head_prose_or_backtick pre2 rest c r2 hp heq with h | h
    · rw [h]; decide
    · exact (proseOk_ne _ h).2.2.2.2.2.2
  have hdash : c ≠ '-' := by
    rcases head_prose_or_backtick pre2 rest c r2 hp heq with h | h
    · rw [h]; decide
    · exact (proseOk_ne _ h).2.2.2.2.2.1
  rw [pNum.eq_def, heq]
  have hm : (match c :: r2 with
      | '-' :: t => (true, t)
      | _ => (false, c :: r2)) = ((false, c :: r2) : Bool × List Char) := by
    split
    · next t heq2 =>
      injection heq2 with h1 _
      exact absurd h1 hdash
    · rfl
  simp only [hm, List.takeWhile_cons, hdig]
  simp

set_option maxHeartbeats 1600000 in
/-- Parsing prose followed by a backtick either fails or leaves the backtick
in the remainder. -/
theorem pVal_prose_cases (m : Nat) (pre rest : List Char)
    (hpre : ∀ c ∈ pre, proseOk c = true) :
    pVal (m + 1) (pre ++ '`' :: rest) = none
    ∨ ∃ v r2, pVal (m + 1) (pre ++ '`' :: rest) = some (v, r2) ∧ '`' ∈ r2 := by
  have hpD : ∀ c ∈ pre.dropWhile jsonWs, proseOk c = true :=
    fun c hc => hpre c ((List.dropWhile_sublist jsonWs).subset hc)
  have hu : (pre ++ '`' :: rest).dropWhile jsonWs
      = pre.dropWhile jsonWs ++ '`' :: rest :=
    dropWhile_append_head jsonWs pre '`' rest (by decide)
  rw [pVal.eq_def]
  split
  · exact Or.inl rfl
  · rw [hu]
    split
    · next rest3 heq =>
      rcases head_prose_or_backtick _ rest _ _ hpD heq with h | h
      · exact absurd h (by decide)
      · exact absurd h (by decide)
    · next rest3 heq =>
      rcases head_prose_or_backtick _ rest _ _ hpD heq with h | h
      · exact absurd h (by decide)
      · exact absurd h (by decide)
    · next rest3 heq =>
      rcases head_prose_or_backtick _ rest _ _ hpD heq with h | h
      · exact absurd h (by decide)
      · exact absurd h (by decide)
    · next rest3 heq =>
      rcases marker_in_remainder ['t', 'r', 'u', 'e'] _ '`' rest rest3 heq with h | ⟨s, hs⟩
      · exact absurd h (by decide)
      · refine Or.inr ⟨_, rest3, rfl, ?_⟩
        rw [hs]
        exact List.mem_append_right _ (List.mem_cons_self _ _)
    · next rest3 heq =>
      rcases marker_in_remainder ['f', 'a', 'l', 's', 'e'] _ '`' rest rest3 heq with h | ⟨s, hs⟩
      · exact absurd h (by decide)
      · refine Or.inr ⟨_, rest3, rfl, ?_⟩
        rw [hs]
        exact List.mem_append_right _ (List.mem_cons_self _ _)
    · next rest3 heq =>
      rcases marker_in_remainder ['n', 'u', 'l', 'l'] _ '`' rest rest3 heq with h | ⟨s, hs⟩
      · exact absurd h (by decide)
      · refine Or.inr ⟨_, rest3, rfl, ?_⟩
        rw [hs]
        exact List.mem_append_right _ (List.mem_cons_self _ _)
    · rw [pNum_prose_backtick _ _ hpD]
      exact Or.inl rfl

/-- Direct JSON parsing of prose followed by a backtick fails. -/
theorem jloads_prose_backtick_none (pre rest : List Char)
    (hpre : ∀ c ∈ pre, proseOk c = true) :
    jloads (pre ++ '`' :: rest) = none := by
  unfold jloads
  rcases pVal_prose_cases ((pre ++ '`' :: rest).length) pre rest hpre with
    hn | ⟨v, r2, hs, hmem⟩
  · rw [hn]
  · rw [hs]
    have hne : r2.dropWhile jsonWs ≠ [] :=
      dropWhile_ne_nil_of_mem jsonWs r2 '`' hmem (by decide)
    simp [List.isEmpty_iff, hne]

/-- C7: for a decision object in a fenced code block wrapped in plain prose
(letters, spaces and basic punctuation), the extractor returns exactly the
value obtained by parsing the inner block alone. -/
theorem c7_fenced_roundtrip (pre Jt post : List Char) (fs : List (String × JVal))
    (hpre : ∀ c ∈ pre, proseOk c = true)
    (hpost : ∀ c ∈ post, proseOk c = true)
    (hne : Jt ≠ []) (hlast : Jt.getLast? = some '}')
    (hbt : '`' ∉ Jt) (hlt : '<' ∉ Jt)
    (hparse : jloads ('\x7b' :: Jt) = some (JVal.obj fs)) :
    extract_json (String.mk (pre ++ "```json\n".data ++ ('\x7b' :: Jt)
      ++ "\n```".data ++ post)) = some (JVal.obj fs) := by
  have hpreT : ∀ c ∈ pre.dropWhile pySpace, proseOk c = true :=
    fun c hc => hpre c ((List.dropWhile_sublist pySpace).subset hc)
  have hpostT : ∀ c ∈ (post.reverse.dropWhile pySpace).reverse, proseOk c = true :=
    fun c hc => hpost c (List.mem_reverse.mp
      ((List.dropWhile_sublist pySpace).subset (List.mem_reverse.mp hc)))
  have hbtPre : '`' ∉ pre.dropWhile pySpace :=
    fun hm => absurd (hpreT _ hm) (by decide)
  rw [show (pre ++ "```json\n".data ++ ('\x7b' :: Jt) ++ "\n```".data ++ post)
      = pre ++ ('`':: '`':: '`':: 'j':: 's':: 'o':: 'n':: '\n':: '\x7b'::
        (Jt ++ ('\n':: '`':: '`':: '`'::post))) from by
    simp [show "```json\n".data = ['`','`','`','j','s','o','n','\n'] from rfl,
      show "\n```".data = ['\n','`','`','`'] from rfl, List.append_assoc]]
  show (extractCore (pre ++ ('`':: '`':: '`':: 'j':: 's':: 'o':: 'n':: '\n':: '\x7b'::
      (Jt ++ ('\n':: '`':: '`':: '`'::post))))).map Prod.snd = some (JVal.obj fs)
  have hlt2 : '<' ∉ pre ++ ('`':: '`':: '`':: 'j':: 's':: 'o':: 'n':: '\n':: '\x7b'::
      (Jt ++ ('\n':: '`':: '`':: '`'::post))) := by
    intro hm
    simp only [List.mem_append, List.mem_cons] at hm
    rcases hm with h|h|h|h|h|h|h|h|h|h|h|h|h|h|h|h
    all_goals first
      | exact absurd (hpre _ h) (by decide)
      | exact absurd (hpost _ h) (by decide)
      | exact hlt h
      | exact absurd h (by decide)
  have hstrip : strip_thinking_tags (pre ++ ('`':: '`':: '`':: 'j':: 's':: 'o':: 'n':: '\n':: '\x7b'::
        (Jt ++ ('\n':: '`':: '`':: '`'::post))))
      = pre.dropWhile pySpace ++ ('`':: '`':: '`':: 'j':: 's':: 'o':: 'n':: '\n':: '\x7b'::
        (Jt ++ ('\n':: '`':: '`':: '`'::(post.reverse.dropWhile pySpace).reverse))) := by
    rw [strip_thinking_tags_id _ hlt2]
    have hmid := pyStrip_wrapped pre
      ('`':: '`':: '`':: 'j':: 's':: 'o':: 'n':: '\n':: '\x7b'::(Jt ++ ['\n','`','`','`'])) post
      (by simp)
      (by intro c h
          have h2 : some '`' = some c := h
          rw [← Option.some.inj h2]
          decide)
      (by intro c h
          rw [show ('`':: '`':: '`':: 'j':: 's':: 'o':: 'n':: '\n':: '\x7b'::(Jt ++ ['\n','`','`','`']))
              = (('`':: '`':: '`':: 'j':: 's':: 'o':: 'n':: '\n':: '\x7b'::Jt) ++ ['\n','`','`','`'])
              from by simp] at h
          rw [List.getLast?_append] at h
          have h2 : some '`' = some c := h
          rw [← Option.some.inj h2]
          decide)
    rw [show pre ++ ('`':: '`':: '`':: 'j':: 's':: 'o':: 'n':: '\n':: '\x7b'::
          (Jt ++ ('\n':: '`':: '`':: '`'::post)))
        = pre ++ ('`':: '`':: '`':: 'j':: 's':: 'o':: 'n':: '\n':: '\x7b'::(Jt ++ ['\n','`','`','`'])) ++ post
        from by simp [List.append_assoc]]
    rw [hmid]
    simp [List.append_assoc]
  unfold extractCore
  simp only [hstrip]
  rw [if_neg (by simp [List.isEmpty_iff])]
  have hdir := jloads_prose_backtick_none (pre.dropWhile pySpace)
    ('`':: '`':: 'j':: 's':: 'o':: 'n':: '\n':: '\x7b'::
      (Jt ++ ('\n':: '`':: '`':: '`'::(post.reverse.dropWhile pySpace).reverse)))
    hpreT
  simp only [hdir]
  have hfs : fenceSearch (pre.dropWhile pySpace ++ ('`':: '`':: '`':: 'j':: 's':: 'o':: 'n':: '\n':: '\x7b'::
      (Jt ++ ('\n':: '`':: '`':: '`'::(post.reverse.dropWhile pySpace).reverse))))
      = some ('\x7b' :: Jt) := by
    rw [fenceSearch_skip _ _ hbtPre]
    have htf := tryFenceAt_block Jt ((post.reverse.dropWhile pySpace).reverse) hne hlast hbt
    simp only [List.cons_append] at htf
    show (tryFenceAt ('`':: '`':: '`':: 'j':: 's':: 'o':: 'n':: '\n':: '\x7b'::
        (Jt ++ ('\n':: '`':: '`':: '`'::(post.reverse.dropWhile pySpace).reverse)))
      <|> fenceSearch ('`':: '`':: 'j':: 's':: 'o':: 'n':: '\n':: '\x7b'::
        (Jt ++ ('\n':: '`':: '`':: '`'::(post.reverse.dropWhile pySpace).reverse))))
      = some ('\x7b' :: Jt)
    rw [htf]
    rfl
  simp only [hfs, hparse]
  rfl

set_option maxRecDepth 4000 in
/-- C7 witness: a concrete fenced decision object with prose around it is
recovered exactly. -/
theorem c7_fenced_roundtrip_witness :
    extract_json (String.mk ("Sure, here is the JSON:\n".data ++ "```json\n".data
        ++ ('\x7b' :: "\"a\": \"b\"\x7d".data) ++ "\n```".data ++ "\nDone.".data))
      = some (JVal.obj [("a", JVal.str "b")]) :=
  c7_fenced_roundtrip "Sure, here is the JSON:\n".data "\"a\": \"b\"\x7d".data
    "\nDone.".data [("a", JVal.str "b")]
    (by decide) (by decide) (by decide) (by decide) (by decide) (by decide) rfl

set_option maxRecDepth 4000 in
/-- C7 counterexample: an unbalanced opening brace in the leading prose makes
the extractor return the step-5 synthesis instead of the fenced object. -/
theorem c7_counterexample :
    jloads "\x7b\"thought\": \"t\", \"action\": \"run\", \"parameters\": \x7b\x7d, \"response\": \"r\", \"continue\": true\x7d".data
        = some (JVal.obj [("thought", JVal.str "t"), ("action", JVal.str "run"),
          ("parameters", JVal.obj []), ("response", JVal.str "r"),
          ("continue", JVal.bool true)])
    ∧ extract_json "``` \x7b\n```json\n\x7b\"thought\": \"t\", \"action\": \"run\", \"parameters\": \x7b\x7d, \"response\": \"r\", \"continue\": true\x7d\n```"
        ≠ some (JVal.obj [("thought", JVal.str "t"), ("action", JVal.str "run"),
          ("parameters", JVal.obj []), ("response", JVal.str "r"),
          ("continue", JVal.bool true)]) := by
  refine ⟨rfl, ?_⟩
  intro h
  have he : extract_json "``` \x7b\n```json\n\x7b\"thought\": \"t\", \"action\": \"run\", \"parameters\": \x7b\x7d, \"response\": \"r\", \"continue\": true\x7d\n```"
      = some (JVal.obj [("thought", JVal.str "t"), ("action", JVal.str "none"),
        ("parameters", JVal.obj []), ("response", JVal.str "r"),
        ("continue", JVal.bool false)]) := rfl
  rw [he] at h
  have h2 := congrArg (fun o => match o with
    | some (JVal.obj (_ :: (_, JVal.str a) :: _)) => a
    | _ => "") h
  simp only [] at h2
  exact absurd h2 (by decide)
